import Mathlib

/-!
# inspecto-http: the debug-report collectors of `main.go`

A shallow embedding of the collectors of `main.go` and the properties of the
report they build.

* A Go `string` is an immutable byte sequence: `GoString := List UInt8`, and Go's
  `len` is `List.length`.  A rune (a Unicode code point) is a `Nat`.
* A Go `map[string]V` is a finite map with pairwise distinct keys: `GoMap V`, an
  association list without duplicate keys.  `m[k] = v` is `AList.insert`, `m[k]`
  is `AList.lookup`.  A `range` loop over a map visits its entries in an
  unspecified order; the embedding visits them in the order of the association
  list, and every order is some association list.
* The process environment (`os.Environ()`) and the parsed cookies
  (`r.Cookies()`) are explicit inputs.
* The standard-library functions the collectors call (`strings.SplitN`,
  `strings.Join`, `strings.Repeat`, `strings.HasPrefix`, `regexp.MatchString`,
  `utf8.DecodeRuneInString`, `textproto.CanonicalMIMEHeaderKey`,
  `http.Header.Get`) are embedded from their Go definitions.
* The header map of a received request is what `textproto.Reader.ReadMIMEHeader`
  stores: each header line under the canonical form of its name.
* The response body is the JSON text `encoding/json` writes for the report
  (sorted keys, `appendString` with HTML escaping, a final newline); reading it
  back is the scanner and `unquoteBytes` of `encoding/json`, run byte by byte.
-/

namespace InspectoHttp

/-! ## Strings -/

/-- A Go string: a sequence of bytes. -/
abbrev GoString := List UInt8

/-- The bytes of a string literal of the source (Go source text is UTF-8). -/
def lit (s : String) : GoString := s.toUTF8.data.toList

/-- Go's `strings.Repeat(s, count)` for a non-negative count. -/
def stringsRepeat (s : GoString) : Nat → GoString
  | 0 => []
  | n + 1 => s ++ stringsRepeat s n

/-- Go's `strings.Join(elems, sep)`. -/
def stringsJoin (elems : List GoString) (sep : GoString) : GoString :=
  match elems with
  | [] => []
  | [a] => a
  | a :: b :: rest => a ++ sep ++ stringsJoin (b :: rest) sep

/-- Go's `strings.HasPrefix(s, prefix)`. -/
def stringsHasPrefix (s pre : GoString) : Bool := pre.isPrefixOf s

/-- Go's `strings.SplitN(s, sep, 2)` for a one-byte separator: the text before
the first separator and the text after it, or `s` alone when there is none. -/
def stringsSplitN2 (s : GoString) (sep : UInt8) : List GoString :=
  match s.span (fun b => b != sep) with
  | (_, []) => [s]
  | (before, _ :: after) => [before, after]

/-! ## UTF-8 decoding, as `regexp` reads its input -/

/-- The rune `utf8.RuneError`, produced for every byte that starts no valid encoding. -/
def runeError : Nat := 0xFFFD

/-- A continuation byte, `0x80..0xBF`. -/
def isCont (b : Nat) : Bool := 0x80 ≤ b && b ≤ 0xBF

/-- The range allowed for the second byte after the lead byte `b0`
(`acceptRanges` of `unicode/utf8`). -/
def acceptSecond (b0 b1 : Nat) : Bool :=
  if b0 = 0xE0 then 0xA0 ≤ b1 && b1 ≤ 0xBF
  else if b0 = 0xED then 0x80 ≤ b1 && b1 ≤ 0x9F
  else if b0 = 0xF0 then 0x90 ≤ b1 && b1 ≤ 0xBF
  else if b0 = 0xF4 then 0x80 ≤ b1 && b1 ≤ 0x8F
  else isCont b1

/-- Go's `utf8.DecodeRuneInString` on a non-empty input: the rune and the number
of bytes it takes.  An invalid or truncated encoding gives `(RuneError, 1)`. -/
def decodeRune (b0 : Nat) (rest : List Nat) : Nat × Nat :=
  if b0 < 0x80 then (b0, 1)
  else if b0 < 0xC2 then (runeError, 1)
  else if b0 < 0xE0 then
    match rest with
    | b1 :: _ => if acceptSecond b0 b1 then (b0 % 32 * 64 + b1 % 64, 2) else (runeError, 1)
    | _ => (runeError, 1)
  else if b0 < 0xF0 then
    match rest with
    | b1 :: b2 :: _ =>
      if acceptSecond b0 b1 && isCont b2 then (b0 % 16 * 4096 + b1 % 64 * 64 + b2 % 64, 3)
      else (runeError, 1)
    | _ => (runeError, 1)
  else if b0 < 0xF5 then
    match rest with
    | b1 :: b2 :: b3 :: _ =>
      if acceptSecond b0 b1 && isCont b2 && isCont b3 then
        (b0 % 8 * 262144 + b1 % 64 * 4096 + b2 % 64 * 64 + b3 % 64, 4)
      else (runeError, 1)
    | _ => (runeError, 1)
  else (runeError, 1)

/-- The runes of a byte sequence, read left to right with `decodeRune`; the
fuel bounds the number of runes and the length of the input suffices. -/
def decodeRunesAux : Nat → List Nat → List Nat
  | 0, _ => []
  | _, [] => []
  | fuel + 1, b0 :: rest =>
    let d := decodeRune b0 rest
    d.1 :: decodeRunesAux fuel (rest.drop (d.2 - 1))

/-- The runes of a Go string, the way `range s` and `regexp` step through it. -/
def decodeRunes (s : GoString) : List Nat :=
  decodeRunesAux s.length (s.map UInt8.toNat)

/-! ## The two sensitivity patterns -/

/-- The runes a literal of a `(?i)` pattern accepts: the orbit of the literal
under `unicode.SimpleFold`, as `regexp/syntax.Inst.MatchRunePos` walks it.  For an
ASCII letter that is its two cases, and in addition U+212A (Kelvin sign) for `k`
and U+017F (long s) for `s`; any other rune accepts itself only. -/
def foldOrbit (r0 : Nat) : List Nat :=
  let lower := if 0x41 ≤ r0 ∧ r0 ≤ 0x5A then r0 + 32 else r0
  if 0x61 ≤ lower ∧ lower ≤ 0x7A then
    if lower = 0x6B then [0x6B, 0x4B, 0x212A]
    else if lower = 0x73 then [0x73, 0x53, 0x17F]
    else [lower, lower - 32]
  else [r0]

/-- One literal of a case-insensitive pattern against one input rune. -/
def matchRuneFold (r0 r : Nat) : Bool := (foldOrbit r0).contains r

/-- A literal word of a `(?i)` pattern matched at the start of the input. -/
def matchWordAt (w : List Nat) (input : List Nat) : Bool :=
  match w, input with
  | [], _ => true
  | _ :: _, [] => false
  | c :: w', r :: input' => matchRuneFold c r && matchWordAt w' input'

/-- A compiled pattern of the shape `(?i)(w1|w2|...)`: its alternatives. -/
structure Regexp where
  alternatives : List (List Nat)

/-- The alternation matched at the start of the input. -/
def Regexp.matchAt (re : Regexp) (input : List Nat) : Bool :=
  re.alternatives.any (fun w => matchWordAt w input)

/-- The unanchored search over the runes of the input: a match may start at
every rune boundary, the end of the input included. -/
def Regexp.search (re : Regexp) : List Nat → Bool
  | [] => re.matchAt []
  | r :: input => re.matchAt (r :: input) || Regexp.search re input

/-- Go's `(*regexp.Regexp).MatchString`. -/
def Regexp.MatchString (re : Regexp) (s : GoString) : Bool :=
  re.search (decodeRunes s)

/-- The words of a pattern as runes; pattern words are ASCII. -/
def word (s : String) : List Nat := s.toList.map Char.toNat

/-- The pattern compiled in `getEnv`: `(?i)(key|token|secret|password|credential)`. -/
def envSensitivePattern : Regexp :=
  ⟨[word "key", word "token", word "secret", word "password", word "credential"]⟩

/-- The pattern compiled in `getCookieInfo`:
`(?i)(token|session|auth|key|secret|password|credential)`. -/
def cookieSensitivePattern : Regexp :=
  ⟨[word "token", word "session", word "auth", word "key", word "secret",
    word "password", word "credential"]⟩

/-! ## Masking -/

/-- The function `maskSensitiveValue`: `strings.Repeat("X", len(value))`. -/
def maskSensitiveValue (value : GoString) : GoString :=
  stringsRepeat (lit "X") value.length

/-! ## Maps -/

/-- A Go `map[string]V`. -/
abbrev GoMap (V : Type) := AList (fun _ : GoString => V)

/-- The empty map, `make(map[string]V)`. -/
def GoMap.empty {V : Type} : GoMap V := ∅

/-- The map after `m[k] = v`. -/
def GoMap.set {V : Type} (m : GoMap V) (k : GoString) (v : V) : GoMap V := m.insert k v

/-- The value `m[k]`, when `k` is a key of `m`. -/
def GoMap.get? {V : Type} (m : GoMap V) (k : GoString) : Option V := m.lookup k

/-- A map literal: the entries assigned from left to right. -/
def GoMap.ofList {V : Type} (l : List (GoString × V)) : GoMap V :=
  l.foldl (fun m kv => m.set kv.1 kv.2) GoMap.empty

/-! ## The environment collector -/

/-- The body of the loop of `getEnv` for one entry of `os.Environ()`. -/
def getEnvStep (env : GoMap GoString) (e : GoString) : GoMap GoString :=
  match stringsSplitN2 e 0x3D with
  | [key, value] =>
    let value := if envSensitivePattern.MatchString key then maskSensitiveValue value else value
    env.set key value
  | _ => env

/-- The function `getEnv`, on the environment snapshot `os.Environ()` returns. -/
def getEnv (environ : List GoString) : GoMap GoString :=
  environ.foldl getEnvStep GoMap.empty

/-- Go's `os.Getenv(key)`: the value of the first entry of the snapshot that
names `key`, or the empty string when there is none (or `key` is empty). -/
def osGetenv (environ : List GoString) (key : GoString) : GoString :=
  if key = [] then []
  else
    (environ.findSome? fun e =>
      match stringsSplitN2 e 0x3D with
      | [k, v] => if k = key then some v else none
      | _ => none).getD []

/-! ## Requests -/

/-- A `time.Time` as this program observes it: `IsZero()` and
`Format(time.RFC3339)`. -/
structure Time where
  IsZero : Bool
  FormatRFC3339 : GoString

/-- The fields of `http.Cookie` the cookie collector reads. -/
structure Cookie where
  Name : GoString
  Value : GoString
  Path : GoString
  Domain : GoString
  Expires : Time
  MaxAge : Int
  Secure : Bool
  HttpOnly : Bool
  SameSite : Int

/-- The fields of `tls.ConnectionState` the TLS collector reads. -/
structure ConnectionState where
  Version : Nat
  CipherSuite : Nat
  ServerName : GoString
  NegotiatedProtocol : GoString

/-- The parts of `*http.Request` the collectors read.  `URL` is `r.URL.String()`,
`Cookies` is `r.Cookies()`, the cookies the HTTP layer parsed from the `Cookie`
header, and `TLS` is `none` for the nil pointer. -/
structure Request where
  Method : GoString
  URL : GoString
  Proto : GoString
  Host : GoString
  RemoteAddr : GoString
  RequestURI : GoString
  Header : GoMap (List GoString)
  TLS : Option ConnectionState
  Cookies : List Cookie

/-- The bytes `textproto.validHeaderFieldByte` accepts: the token characters of
RFC 7230. -/
def validHeaderFieldByte (c : UInt8) : Bool :=
  (0x30 ≤ c && c ≤ 0x39) || (0x61 ≤ c && c ≤ 0x7A) || (0x41 ≤ c && c ≤ 0x5A) ||
    (lit "!#$%&'*+-.^_|~").contains c || c == 0x60

/-- The rewriting loop of `textproto.canonicalMIMEHeaderKey`: upper case for the
first letter and for each letter after a dash, lower case elsewhere. -/
def canonicalLoop (upper : Bool) : GoString → GoString
  | [] => []
  | c :: rest =>
    let c' := if upper && 0x61 ≤ c && c ≤ 0x7A then c - 32
      else if !upper && 0x41 ≤ c && c ≤ 0x5A then c + 32
      else c
    c' :: canonicalLoop (c' == 0x2D) rest

/-- Go's `textproto.CanonicalMIMEHeaderKey`: a key with a byte that is no token
character is returned unchanged. -/
def CanonicalMIMEHeaderKey (s : GoString) : GoString :=
  if s.all validHeaderFieldByte then canonicalLoop true s else s

/-- Go's `http.Header.Get`: the first value stored under the canonical form of
`key`, or the empty string. -/
def HeaderGet (h : GoMap (List GoString)) (key : GoString) : GoString :=
  match h.get? (CanonicalMIMEHeaderKey key) with
  | some (v :: _) => v
  | _ => []

/-- The storing step of `textproto.Reader.ReadMIMEHeader` for one received
header line `name: value` whose name is well formed: the value is appended to
the values held under the canonical form of the name; a line with an empty name
is skipped. -/
def readMIMEHeaderLine (m : GoMap (List GoString)) (line : GoString × GoString) :
    GoMap (List GoString) :=
  let key := CanonicalMIMEHeaderKey line.1
  if key = [] then m else m.set key ((m.get? key).getD [] ++ [line.2])

/-- The map `textproto.Reader.ReadMIMEHeader` builds from the header lines of a
received request, in arrival order; `net/http` takes `r.Header` from it. -/
def readMIMEHeader (lines : List (GoString × GoString)) : GoMap (List GoString) :=
  lines.foldl readMIMEHeaderLine GoMap.empty

/-! ## The header collectors -/

/-- The function `getHeaders`. -/
def getHeaders (r : Request) : GoMap GoString :=
  r.Header.entries.foldl
    (fun headers nv =>
      if nv.1 ≠ lit "Cookie" then headers.set nv.1 (stringsJoin nv.2 (lit ", ")) else headers)
    GoMap.empty

/-- The function `getCloudflareInfo`. -/
def getCloudflareInfo (r : Request) : GoMap GoString :=
  r.Header.entries.foldl
    (fun cfHeaders nv =>
      if stringsHasPrefix nv.1 (lit "Cf-") then cfHeaders.set nv.1 (stringsJoin nv.2 (lit ", "))
      else cfHeaders)
    GoMap.empty

/-- The ten header names of `getTraefikInfo`, in source order. -/
def traefikNames : List GoString :=
  [lit "X-Forwarded-For", lit "X-Forwarded-Proto", lit "X-Forwarded-Host",
   lit "X-Forwarded-Port", lit "X-Real-IP", lit "X-Forwarded-Server",
   lit "X-Forwarded-User", lit "X-Forwarded-Group", lit "X-Forwarded-Uri",
   lit "X-Original-URL"]

/-- The function `getTraefikInfo`. -/
def getTraefikInfo (r : Request) : GoMap GoString :=
  GoMap.ofList [
    (lit "X-Forwarded-For", HeaderGet r.Header (lit "X-Forwarded-For")),
    (lit "X-Forwarded-Proto", HeaderGet r.Header (lit "X-Forwarded-Proto")),
    (lit "X-Forwarded-Host", HeaderGet r.Header (lit "X-Forwarded-Host")),
    (lit "X-Forwarded-Port", HeaderGet r.Header (lit "X-Forwarded-Port")),
    (lit "X-Real-IP", HeaderGet r.Header (lit "X-Real-IP")),
    (lit "X-Forwarded-Server", HeaderGet r.Header (lit "X-Forwarded-Server")),
    (lit "X-Forwarded-User", HeaderGet r.Header (lit "X-Forwarded-User")),
    (lit "X-Forwarded-Group", HeaderGet r.Header (lit "X-Forwarded-Group")),
    (lit "X-Forwarded-Uri", HeaderGet r.Header (lit "X-Forwarded-Uri")),
    (lit "X-Original-URL", HeaderGet r.Header (lit "X-Original-URL"))]

/-- The function `getRequestInfo`. -/
def getRequestInfo (r : Request) : GoMap GoString :=
  GoMap.ofList [
    (lit "Method", r.Method),
    (lit "URL", r.URL),
    (lit "Protocol", r.Proto),
    (lit "Host", r.Host),
    (lit "RemoteAddr", r.RemoteAddr),
    (lit "RequestURI", r.RequestURI)]

/-- The function `getRemoteInfo`; `r.UserAgent()` and `r.Referer()` are
`r.Header.Get` of `User-Agent` and `Referer`. -/
def getRemoteInfo (r : Request) : GoMap GoString :=
  GoMap.ofList [
    (lit "RemoteAddr", r.RemoteAddr),
    (lit "UserAgent", HeaderGet r.Header (lit "User-Agent")),
    (lit "Referer", HeaderGet r.Header (lit "Referer"))]

/-- The function `getServerInfo`, with the environment snapshot made explicit. -/
def getServerInfo (environ : List GoString) (r : Request) : GoMap GoString :=
  GoMap.ofList [
    (lit "ServerProtocol", r.Proto),
    (lit "ServerSoftware", osGetenv environ (lit "SERVER_SOFTWARE"))]

/-! ## The TLS collector -/

/-- The function `getTLSVersion`; `tls.VersionTLS10 .. tls.VersionTLS13` are
`0x0301 .. 0x0304`. -/
def getTLSVersion (version : Nat) : GoString :=
  if version = 0x0301 then lit "TLS 1.0"
  else if version = 0x0302 then lit "TLS 1.1"
  else if version = 0x0303 then lit "TLS 1.2"
  else if version = 0x0304 then lit "TLS 1.3"
  else lit "Unknown"

/-- The function `getTLSInfo`; `cipherSuiteName` stands for the library table
`tls.CipherSuiteName`. -/
def getTLSInfo (cipherSuiteName : Nat → GoString) (r : Request) : GoMap GoString :=
  match r.TLS with
  | none => GoMap.ofList [(lit "TLS", lit "Not used")]
  | some cs =>
    GoMap.ofList [
      (lit "TLS Version", getTLSVersion cs.Version),
      (lit "Cipher Suite", cipherSuiteName cs.CipherSuite),
      (lit "Server Name", cs.ServerName),
      (lit "Negotiated Proto", cs.NegotiatedProtocol)]

/-! ## The cookie collector -/

/-- The function `formatTime`. -/
def formatTime (t : Time) : GoString :=
  if t.IsZero then lit "Not set" else t.FormatRFC3339

/-- The function `formatSameSite`; `http.SameSiteDefaultMode`, `SameSiteLaxMode`,
`SameSiteStrictMode`, `SameSiteNoneMode` are 1, 2, 3, 4. -/
def formatSameSite (s : Int) : GoString :=
  if s = 1 then lit "Default"
  else if s = 2 then lit "Lax"
  else if s = 3 then lit "Strict"
  else if s = 4 then lit "None"
  else lit "Not set"

/-- Go's `fmt.Sprintf("%d", n)`. -/
def sprintfD (n : Int) : GoString := lit (toString n)

/-- Go's `fmt.Sprintf("%t", b)`. -/
def sprintfT (b : Bool) : GoString := if b then lit "true" else lit "false"

/-- The body of the loop of `getCookieInfo`: the record built for one cookie. -/
def cookieData (cookie : Cookie) : GoMap GoString :=
  let data := GoMap.ofList [
    (lit "Name", cookie.Name),
    (lit "Value", cookie.Value),
    (lit "Path", cookie.Path),
    (lit "Domain", cookie.Domain),
    (lit "Expires", formatTime cookie.Expires),
    (lit "MaxAge", sprintfD cookie.MaxAge),
    (lit "Secure", sprintfT cookie.Secure),
    (lit "HttpOnly", sprintfT cookie.HttpOnly),
    (lit "SameSite", formatSameSite cookie.SameSite)]
  if cookieSensitivePattern.MatchString cookie.Name then
    data.set (lit "Value") (maskSensitiveValue cookie.Value)
  else data

/-- The loop of `getCookieInfo` from index `i` on: `cookieInfo[i] = cookieData`
for each cookie in turn. -/
def cookieLoop : Nat → List Cookie → List (GoMap GoString) → List (GoMap GoString)
  | _, [], cookieInfo => cookieInfo
  | i, cookie :: rest, cookieInfo => cookieLoop (i + 1) rest (cookieInfo.set i (cookieData cookie))

/-- The function `getCookieInfo`: a slice of `len(cookies)` nil maps, filled by
the loop. -/
def getCookieInfo (r : Request) : List (GoMap GoString) :=
  cookieLoop 0 r.Cookies (List.replicate r.Cookies.length GoMap.empty)

/-! ## The report -/

/-- A value of the report: a mapping of strings or a sequence of such mappings. -/
inductive ReportValue where
  | mapping (m : GoMap GoString)
  | sequence (l : List (GoMap GoString))

/-- The map `debugInfo` that `handleDebugInfo` builds and encodes as the
response body. -/
def handleDebugInfo (cipherSuiteName : Nat → GoString) (environ : List GoString)
    (r : Request) : GoMap ReportValue :=
  GoMap.ofList [
    (lit "headers", .mapping (getHeaders r)),
    (lit "environment", .mapping (getEnv environ)),
    (lit "request", .mapping (getRequestInfo r)),
    (lit "cloudflare", .mapping (getCloudflareInfo r)),
    (lit "traefik", .mapping (getTraefikInfo r)),
    (lit "remoteInfo", .mapping (getRemoteInfo r)),
    (lit "serverInfo", .mapping (getServerInfo environ r)),
    (lit "tls", .mapping (getTLSInfo cipherSuiteName r)),
    (lit "cookies", .sequence (getCookieInfo r))]

/-! ## JSON: what `encoding/json` writes for the report -/

/-- The table `hex` of `encoding/json`: the digit of a number below 16. -/
def hexDigit (n : Nat) : UInt8 := (lit "0123456789abcdef").getD n 0x30

/-- The table `htmlSafeSet` of `encoding/json`: the ASCII bytes written as they
are, the printable ones other than the quote, the backslash and `&`, `<`, `>`. -/
def htmlSafe (b : UInt8) : Bool :=
  0x20 ≤ b.toNat && b.toNat < 0x80 &&
    !(b = 0x22 || b = 0x5C || b = 0x26 || b = 0x3C || b = 0x3E)

/-- The escape `appendString` writes for an ASCII byte outside `htmlSafeSet`:
a backslash before the quote and the backslash, the two-byte escapes of
backspace, form feed, newline, carriage return and tab (as of Go 1.22; earlier
releases write the six-byte escape for backspace and form feed), and the six-byte
escape with two hexadecimal digits for the rest. -/
def escapeByte (b : UInt8) : GoString :=
  if b = 0x5C ∨ b = 0x22 then [0x5C, b]
  else if b = 0x08 then [0x5C, 0x62]
  else if b = 0x0C then [0x5C, 0x66]
  else if b = 0x0A then [0x5C, 0x6E]
  else if b = 0x0D then [0x5C, 0x72]
  else if b = 0x09 then [0x5C, 0x74]
  else [0x5C, 0x75, 0x30, 0x30, hexDigit (b.toNat / 16), hexDigit (b.toNat % 16)]

/-- The loop of `appendString` with HTML escaping on, from one position of the
source string on: safe ASCII bytes and valid multi-byte runes are copied, other
ASCII bytes are escaped, a byte that starts no valid encoding is written as the
escape of U+FFFD, and U+2028, U+2029 are written as their escapes.  The fuel
bounds the number of runes; the length of the source suffices. -/
def appendStringAux : Nat → GoString → GoString
  | 0, _ => []
  | _, [] => []
  | fuel + 1, b :: rest =>
    if b.toNat < 0x80 then
      (if htmlSafe b then [b] else escapeByte b) ++ appendStringAux fuel rest
    else
      let d := decodeRune b.toNat (rest.map UInt8.toNat)
      if d.1 = runeError ∧ d.2 = 1 then
        [0x5C, 0x75, 0x66, 0x66, 0x66, 0x64] ++ appendStringAux fuel rest
      else if d.1 = 0x2028 ∨ d.1 = 0x2029 then
        [0x5C, 0x75, 0x32, 0x30, 0x32, hexDigit (d.1 % 16)] ++
          appendStringAux fuel (rest.drop (d.2 - 1))
      else (b :: rest.take (d.2 - 1)) ++ appendStringAux fuel (rest.drop (d.2 - 1))

/-- The function `appendString` of `encoding/json`: a string as a JSON string literal. -/
def appendString (s : GoString) : GoString :=
  0x22 :: appendStringAux s.length s ++ [0x22]

/-- Go's `strings.Compare(a, b) <= 0`: the bytewise lexicographic order. -/
def bytesLE : GoString → GoString → Bool
  | [], _ => true
  | _ :: _, [] => false
  | a :: s, b :: t => a.toNat < b.toNat || (a = b && bytesLE s t)

/-- Insertion of an entry into a list of entries ordered by key. -/
def insertByKey {V : Type} (kv : GoString × V) : List (GoString × V) → List (GoString × V)
  | [] => [kv]
  | x :: t => if bytesLE kv.1 x.1 then kv :: x :: t else x :: insertByKey kv t

/-- The entries of a map ordered by key, as the map encoder sorts them. -/
def sortedEntries {V : Type} (m : GoMap V) : List (GoString × V) :=
  (m.entries.map fun e => (e.1, e.2)).foldr insertByKey []

/-- The member loop of the map encoder: a comma before every member but the
first, then the key as a string literal, a colon, and the encoded value. -/
def encodeMembers {V : Type} (encodeValue : V → GoString) : Bool → List (GoString × V) → GoString
  | _, [] => []
  | first, kv :: rest =>
    (if first then [] else [0x2C]) ++ appendString kv.1 ++ [0x3A] ++ encodeValue kv.2 ++
      encodeMembers encodeValue false rest

/-- The map encoder of `encoding/json` for a non-nil map with string keys. -/
def encodeMap {V : Type} (encodeValue : V → GoString) (m : GoMap V) : GoString :=
  0x7B :: encodeMembers encodeValue true (sortedEntries m) ++ [0x7D]

/-- The element loop of the slice encoder. -/
def encodeElems {E : Type} (encodeElem : E → GoString) : Bool → List E → GoString
  | _, [] => []
  | first, e :: rest =>
    (if first then [] else [0x2C]) ++ encodeElem e ++ encodeElems encodeElem false rest

/-- The slice encoder of `encoding/json` for a non-nil slice. -/
def encodeSlice {E : Type} (encodeElem : E → GoString) (l : List E) : GoString :=
  0x5B :: encodeElems encodeElem true l ++ [0x5D]

/-- The encoding of a `map[string]string`. -/
def encodeStringMap (m : GoMap GoString) : GoString := encodeMap appendString m

/-- The encoding of a value of the report, by its dynamic type. -/
def encodeReportValue : ReportValue → GoString
  | .mapping m => encodeStringMap m
  | .sequence l => encodeSlice encodeStringMap l

/-- The bytes `json.NewEncoder(w).Encode(debugInfo)` writes: the report as a JSON
object and the newline that ends every encoded value. -/
def jsonEncode (debugInfo : GoMap ReportValue) : GoString :=
  encodeMap encodeReportValue debugInfo ++ [0x0A]

/-- The response body of `handleDebugInfo`: the JSON text of the report. -/
def responseBody (cipherSuiteName : Nat → GoString) (environ : List GoString)
    (r : Request) : GoString :=
  jsonEncode (handleDebugInfo cipherSuiteName environ r)

/-! ## JSON: what `encoding/json` reads -/

/-- A decoded JSON value, as `Unmarshal` stores it in an `interface{}`.  A
number is kept as its text. -/
inductive JValue where
  | null
  | bool (b : Bool)
  | number (text : GoString)
  | string (s : GoString)
  | array (elems : List JValue)
  | object (members : List (GoString × JValue))

/-- An open array or object of the input read so far: the elements of an array,
the members of an object, or the members of an object and the key whose value
is awaited. -/
inductive Frame where
  | array (elems : List JValue)
  | object (members : List (GoString × JValue))
  | member (members : List (GoString × JValue)) (key : GoString)

/-- The states of the scanner inside a number. -/
inductive NumState where
  | neg | zero | int | dot | frac | exp | expSign | expDigits
  deriving DecidableEq

/-- The states of the scanner of `encoding/json` (`stateBeginValue`,
`stateInString`, ...), with the text of the token being read. -/
inductive Mode where
  | beginValue
  | beginValueOrEmpty
  | beginStringOrEmpty
  | beginString
  | endValue
  | done (v : JValue)
  | inString (isKey : Bool) (raw : GoString)
  | inStringEsc (isKey : Bool) (raw : GoString)
  | inStringEscU (isKey : Bool) (raw : GoString) (digits : Nat)
  | number (st : NumState) (text : GoString)
  | literal (rest : GoString) (v : JValue)
  | error

/-- The decoder between two bytes: the open arrays and objects, innermost
first, and the state of the scanner. -/
structure ParseState where
  stack : List Frame
  mode : Mode

/-- The function `isSpace` of the scanner. -/
def isSpace (c : UInt8) : Bool := c = 0x20 || c = 0x09 || c = 0x0D || c = 0x0A

/-- The bytes the scanner accepts after a backslash, other than `u`: `b`, `f`,
`n`, `r`, `t`, the backslash, the slash and the quote. -/
def isEscapeChar (e : UInt8) : Bool :=
  e = 0x62 || e = 0x66 || e = 0x6E || e = 0x72 || e = 0x74 || e = 0x5C || e = 0x2F || e = 0x22

/-- A hexadecimal digit and its value. -/
def hexValue (c : UInt8) : Option Nat :=
  if 0x30 ≤ c.toNat ∧ c.toNat ≤ 0x39 then some (c.toNat - 0x30)
  else if 0x61 ≤ c.toNat ∧ c.toNat ≤ 0x66 then some (c.toNat - 0x61 + 10)
  else if 0x41 ≤ c.toNat ∧ c.toNat ≤ 0x46 then some (c.toNat - 0x41 + 10)
  else none

/-- Four hexadecimal digits at the head of the input: their value and the rest. -/
def hex4 : GoString → Option (Nat × GoString)
  | a :: b :: c :: d :: rest =>
    match hexValue a, hexValue b, hexValue c, hexValue d with
    | some x, some y, some z, some w => some (((x * 16 + y) * 16 + z) * 16 + w, rest)
    | _, _, _, _ => none
  | _ => none

/-- The function `getu4` of the decoder: the code unit of a backslash-u escape of four digits at
the head of the input, and the rest. -/
def getu4 : GoString → Option (Nat × GoString)
  | c :: e :: rest => if c = 0x5C ∧ e = 0x75 then hex4 rest else none
  | _ => none

/-- Go's `utf8.AppendRune`: the UTF-8 encoding of a rune; a surrogate or a rune
above U+10FFFF is encoded as U+FFFD. -/
def utf8EncodeRune (r : Nat) : GoString :=
  if r < 0x80 then [UInt8.ofNat r]
  else if r < 0x800 then [UInt8.ofNat (0xC0 + r / 64), UInt8.ofNat (0x80 + r % 64)]
  else if 0x10FFFF < r ∨ (0xD800 ≤ r ∧ r ≤ 0xDFFF) then [0xEF, 0xBF, 0xBD]
  else if r < 0x10000 then
    [UInt8.ofNat (0xE0 + r / 4096), UInt8.ofNat (0x80 + r / 64 % 64), UInt8.ofNat (0x80 + r % 64)]
  else
    [UInt8.ofNat (0xF0 + r / 262144), UInt8.ofNat (0x80 + r / 4096 % 64),
     UInt8.ofNat (0x80 + r / 64 % 64), UInt8.ofNat (0x80 + r % 64)]

/-- The byte a two-character escape stands for, as `unquoteBytes` reads it. -/
def simpleEscape (e : UInt8) : Option UInt8 :=
  if e = 0x22 ∨ e = 0x5C ∨ e = 0x2F ∨ e = 0x27 then some e
  else if e = 0x62 then some 0x08
  else if e = 0x66 then some 0x0C
  else if e = 0x6E then some 0x0A
  else if e = 0x72 then some 0x0D
  else if e = 0x74 then some 0x09
  else none

/-- The loop of `unquoteBytes` on the text between the quotes of a string
literal: escapes are replaced by what they stand for, a surrogate pair of
such escapes by its rune, a lone surrogate and a byte that starts no valid
encoding by U+FFFD.  The fuel bounds the number of steps; the length of the
text suffices. -/
def unquoteAux : Nat → GoString → Option GoString
  | _, [] => some []
  | 0, _ :: _ => none
  | fuel + 1, c :: rest =>
    if c = 0x5C then
      match rest with
      | [] => none
      | e :: rest' =>
        if e = 0x75 then
          match hex4 rest' with
          | none => none
          | some (rr, after) =>
            if 0xD800 ≤ rr ∧ rr < 0xE000 then
              match getu4 after with
              | some (rr1, after') =>
                if rr < 0xDC00 ∧ 0xDC00 ≤ rr1 ∧ rr1 < 0xE000 then
                  (unquoteAux fuel after').map fun t =>
                    utf8EncodeRune ((rr - 0xD800) * 1024 + (rr1 - 0xDC00) + 0x10000) ++ t
                else (unquoteAux fuel after).map fun t => utf8EncodeRune runeError ++ t
              | none => (unquoteAux fuel after).map fun t => utf8EncodeRune runeError ++ t
            else (unquoteAux fuel after).map fun t => utf8EncodeRune rr ++ t
        else
          match simpleEscape e with
          | some b => (unquoteAux fuel rest').map fun t => b :: t
          | none => none
    else if c = 0x22 ∨ c.toNat < 0x20 then none
    else if c.toNat < 0x80 then (unquoteAux fuel rest).map fun t => c :: t
    else
      let d := decodeRune c.toNat (rest.map UInt8.toNat)
      (unquoteAux fuel (rest.drop (d.2 - 1))).map fun t => utf8EncodeRune d.1 ++ t

/-- The function `unquoteBytes` of the decoder, on the text between the quotes. -/
def unquote (raw : GoString) : Option GoString := unquoteAux raw.length raw

/-- A finished value joins what is open: it ends the input at the top level, is
the next element of an array, or the value of the awaited key of an object. -/
def pushValue (stack : List Frame) (v : JValue) : ParseState :=
  match stack with
  | [] => ⟨[], .done v⟩
  | .array elems :: rest => ⟨.array (elems ++ [v]) :: rest, .endValue⟩
  | .member members key :: rest => ⟨.object (members ++ [(key, v)]) :: rest, .endValue⟩
  | .object members :: rest => ⟨.object members :: rest, .error⟩

/-- The scanner state `stateEndValue`, and `stateEndTop` once the top-level
value is complete: after a key a colon, after a member a comma or the closing
brace, after an element a comma or the closing bracket, after the top-level
value only space. -/
def stepEnd (st : ParseState) (c : UInt8) : ParseState :=
  if isSpace c then st
  else
    match st.mode, st.stack with
    | .endValue, .member members key :: rest =>
      if c = 0x3A then ⟨.member members key :: rest, .beginValue⟩ else ⟨st.stack, .error⟩
    | .endValue, .object members :: rest =>
      if c = 0x2C then ⟨.object members :: rest, .beginString⟩
      else if c = 0x7D then pushValue rest (.object members)
      else ⟨st.stack, .error⟩
    | .endValue, .array elems :: rest =>
      if c = 0x2C then ⟨.array elems :: rest, .beginValue⟩
      else if c = 0x5D then pushValue rest (.array elems)
      else ⟨st.stack, .error⟩
    | _, _ => ⟨st.stack, .error⟩

/-- The scanner state `stateBeginValue` on a byte that is no space. -/
def stepBeginValue (stack : List Frame) (c : UInt8) : ParseState :=
  if c = 0x7B then ⟨.object [] :: stack, .beginStringOrEmpty⟩
  else if c = 0x5B then ⟨.array [] :: stack, .beginValueOrEmpty⟩
  else if c = 0x22 then ⟨stack, .inString false []⟩
  else if c = 0x2D then ⟨stack, .number .neg [c]⟩
  else if c = 0x30 then ⟨stack, .number .zero [c]⟩
  else if 0x31 ≤ c.toNat ∧ c.toNat ≤ 0x39 then ⟨stack, .number .int [c]⟩
  else if c = 0x74 then ⟨stack, .literal [0x72, 0x75, 0x65] (.bool true)⟩
  else if c = 0x66 then ⟨stack, .literal [0x61, 0x6C, 0x73, 0x65] (.bool false)⟩
  else if c = 0x6E then ⟨stack, .literal [0x75, 0x6C, 0x6C] .null⟩
  else ⟨stack, .error⟩

/-- The closing quote of a string literal: the text is unquoted and is the key
of the next member or a finished value. -/
def endString (stack : List Frame) (isKey : Bool) (raw : GoString) : ParseState :=
  match unquote raw with
  | none => ⟨stack, .error⟩
  | some s =>
    if isKey then
      match stack with
      | .object members :: rest => ⟨.member members s :: rest, .endValue⟩
      | _ => ⟨stack, .error⟩
    else pushValue stack (.string s)

/-- The scanner inside a number: the next state when the byte continues the
number, `none` when the number cannot continue with it. -/
def stepNumber (st : NumState) (c : UInt8) : Option NumState :=
  let digit : Bool := 0x30 ≤ c.toNat && c.toNat ≤ 0x39
  match st with
  | .neg => if c = 0x30 then some .zero else if digit then some .int else none
  | .int => if digit then some .int else if c = 0x2E then some .dot
    else if c = 0x65 ∨ c = 0x45 then some .exp else none
  | .zero => if c = 0x2E then some .dot else if c = 0x65 ∨ c = 0x45 then some .exp else none
  | .dot => if digit then some .frac else none
  | .frac => if digit then some .frac else if c = 0x65 ∨ c = 0x45 then some .exp else none
  | .exp => if c = 0x2B ∨ c = 0x2D then some .expSign else if digit then some .expDigits
    else none
  | .expSign => if digit then some .expDigits else none
  | .expDigits => if digit then some .expDigits else none

/-- A number may end in this state. -/
def NumState.complete : NumState → Bool
  | .zero | .int | .frac | .expDigits => true
  | _ => false

/-- One step of the decoder: the state after the byte `c`. -/
def step (st : ParseState) (c : UInt8) : ParseState :=
  match st.mode with
  | .error => st
  | .done _ => stepEnd st c
  | .endValue => stepEnd st c
  | .beginValue => if isSpace c then st else stepBeginValue st.stack c
  | .beginValueOrEmpty =>
    if isSpace c then st
    else if c = 0x5D then
      match st.stack with
      | .array elems :: rest => pushValue rest (.array elems)
      | _ => ⟨st.stack, .error⟩
    else stepBeginValue st.stack c
  | .beginStringOrEmpty =>
    if isSpace c then st
    else if c = 0x7D then
      match st.stack with
      | .object members :: rest => pushValue rest (.object members)
      | _ => ⟨st.stack, .error⟩
    else if c = 0x22 then ⟨st.stack, .inString true []⟩
    else ⟨st.stack, .error⟩
  | .beginString =>
    if isSpace c then st
    else if c = 0x22 then ⟨st.stack, .inString true []⟩
    else ⟨st.stack, .error⟩
  | .inString isKey raw =>
    if c = 0x22 then endString st.stack isKey raw
    else if c = 0x5C then ⟨st.stack, .inStringEsc isKey (raw ++ [c])⟩
    else if c.toNat < 0x20 then ⟨st.stack, .error⟩
    else ⟨st.stack, .inString isKey (raw ++ [c])⟩
  | .inStringEsc isKey raw =>
    if isEscapeChar c then ⟨st.stack, .inString isKey (raw ++ [c])⟩
    else if c = 0x75 then ⟨st.stack, .inStringEscU isKey (raw ++ [c]) 0⟩
    else ⟨st.stack, .error⟩
  | .inStringEscU isKey raw digits =>
    if (hexValue c).isSome then
      if digits = 3 then ⟨st.stack, .inString isKey (raw ++ [c])⟩
      else ⟨st.stack, .inStringEscU isKey (raw ++ [c]) (digits + 1)⟩
    else ⟨st.stack, .error⟩
  | .number ns text =>
    match stepNumber ns c with
    | some ns' => ⟨st.stack, .number ns' (text ++ [c])⟩
    | none =>
      if ns.complete then stepEnd (pushValue st.stack (.number text)) c
      else ⟨st.stack, .error⟩
  | .literal rest v =>
    match rest with
    | [] => ⟨st.stack, .error⟩
    | [x] => if c = x then pushValue st.stack v else ⟨st.stack, .error⟩
    | x :: more => if c = x then ⟨st.stack, .literal more v⟩ else ⟨st.stack, .error⟩

/-- The decoder run over a stretch of input. -/
def run (st : ParseState) (input : GoString) : ParseState := input.foldl step st

/-- The whole input decoded: the value, when the input is one JSON value with
nothing but space around it.  At the end of the input the scanner is fed a
space, as `scanner.eof` does, which ends a top-level number. -/
def jsonParse (input : GoString) : Option JValue :=
  match (step (run ⟨[], .beginValue⟩ input) 0x20).mode with
  | .done v => some v
  | _ => none

/-- Go's `json.Unmarshal` into a `map[string]interface{}`: the members of the
top-level object, a later member replacing an earlier one of the same key; the
literal `null` leaves the map without keys; any other value is an error. -/
def jsonUnmarshal (input : GoString) : Option (GoMap JValue) :=
  match jsonParse input with
  | some (.object members) => some (GoMap.ofList members)
  | some .null => some GoMap.empty
  | _ => none


/-! ## Vocabulary of the specification -/

/-- The name of an environment entry `NAME=VALUE`: the text before its first
`=`; an entry without `=` names no variable. -/
def entryName (e : GoString) : Option GoString :=
  if (0x3D : UInt8) ∈ e then some (e.takeWhile fun b => b != 0x3D) else none

/-- The entry `NAME=VALUE`. -/
def entry (name value : GoString) : GoString := name ++ 0x3D :: value

/-- The names of a snapshot are pairwise distinct. -/
def DistinctNames (environ : List GoString) : Prop :=
  (environ.filterMap entryName).Nodup

instance (environ : List GoString) : Decidable (DistinctNames environ) :=
  inferInstanceAs (Decidable (List.Nodup _))

/-- Unicode simple case folding on the runes that fold to an ASCII letter: the
capitals `A..Z`, U+212A (Kelvin sign, folds to `k`) and U+017F (long s, folds to
`s`).  No other rune folds to an ASCII letter, so other runes are left alone. -/
def asciiFold (r : Nat) : Nat :=
  if 0x41 ≤ r ∧ r ≤ 0x5A then r + 32
  else if r = 0x212A then 0x6B
  else if r = 0x17F then 0x73
  else r

/-- The name contains, case-insensitively, one of the lower-case ASCII words:
the word is a contiguous part of the case-folded runes of the name. -/
def ContainsFold (words : List String) (name : GoString) : Prop :=
  ∃ w ∈ words, word w <:+: (decodeRunes name).map asciiFold

instance (words : List String) (name : GoString) : Decidable (ContainsFold words name) :=
  inferInstanceAs (Decidable (∃ w ∈ words, word w <:+: (decodeRunes name).map asciiFold))

/-- The substrings that make an environment variable name sensitive. -/
def envWords : List String := ["key", "token", "secret", "password", "credential"]

/-- The substrings that make a cookie name sensitive. -/
def cookieWords : List String :=
  ["token", "session", "auth", "key", "secret", "password", "credential"]

/-- The string consists of the character `X` only. -/
def AllX (v : GoString) : Prop := ∀ b ∈ v, b = 0x58

instance (v : GoString) : Decidable (AllX v) :=
  inferInstanceAs (Decidable (∀ b ∈ v, b = 0x58))

/-- A lower-case ASCII letter. -/
def IsLower (c : Nat) : Prop := 0x61 ≤ c ∧ c ≤ 0x7A

/-- The nine top-level keys of the report, in source order. -/
def reportKeys : List GoString :=
  [lit "headers", lit "environment", lit "request", lit "cloudflare", lit "traefik",
   lit "remoteInfo", lit "serverInfo", lit "tls", lit "cookies"]

/-- The five renderings of a same-site mode. -/
def sameSiteNames : List GoString :=
  [lit "Default", lit "Lax", lit "Strict", lit "None", lit "Not set"]

/-- The number of characters of a string: its runes, as `utf8.RuneCountInString`
counts them. -/
def runeCount (s : GoString) : Nat := (decodeRunes s).length

/-- The string is made of ASCII characters only. -/
def IsASCII (s : GoString) : Prop := ∀ b ∈ s, b.toNat < 0x80

instance (s : GoString) : Decidable (IsASCII s) :=
  inferInstanceAs (Decidable (∀ b ∈ s, b.toNat < 0x80))

/-! ## JSON: well-formed string text -/

/-- A byte that stands for itself inside a JSON string literal. -/
def PlainByte (c : UInt8) : Prop := c ≠ 0x22 ∧ c ≠ 0x5C ∧ 0x20 ≤ c.toNat

/-- The text between the quotes of a well-formed JSON string literal: plain
bytes, two-byte escapes, and backslash-u escapes of four hexadecimal digits. -/
inductive StrOK : GoString → Prop where
  | nil : StrOK []
  | plain (c : UInt8) (rest : GoString) : PlainByte c → StrOK rest → StrOK (c :: rest)
  | escape (e : UInt8) (rest : GoString) :
    isEscapeChar e = true → StrOK rest → StrOK (0x5C :: e :: rest)
  | escapeU (h1 h2 h3 h4 : UInt8) (rest : GoString) :
    (hexValue h1).isSome = true → (hexValue h2).isSome = true → (hexValue h3).isSome = true →
    (hexValue h4).isSome = true → StrOK rest →
    StrOK (0x5C :: 0x75 :: h1 :: h2 :: h3 :: h4 :: rest)

/-- The key a JSON reader gets back for the key `k` of an encoded map. -/
def roundKey (k : GoString) : GoString := (unquote (appendStringAux k.length k)).getD []

/-- The encoder of the values of a map or slice writes text that is read back as
one value wherever a value is expected. -/
def ReadsBack {V : Type} (encodeValue : V → GoString) : Prop :=
  ∀ (v : V) (stack : List Frame), ∃ jv, run ⟨stack, .beginValue⟩ (encodeValue v) = pushValue stack jv

/-- The nine top-level keys of the report in the order the encoder writes them. -/
def sortedReportKeys : List GoString :=
  [lit "cloudflare", lit "cookies", lit "environment", lit "headers", lit "remoteInfo",
   lit "request", lit "serverInfo", lit "tls", lit "traefik"]

/-! ## Example inputs -/

/-- A cookie as `r.Cookies()` yields it: name and value from the `Cookie` header,
every other field at its zero value. -/
def requestCookie (name value : GoString) : Cookie :=
  { Name := name, Value := value, Path := [], Domain := [],
    Expires := { IsZero := true, FormatRFC3339 := lit "0001-01-01T00:00:00Z" },
    MaxAge := 0, Secure := false, HttpOnly := false, SameSite := 0 }

/-- A plain `GET /` request over HTTP/1.1 with the given headers and cookies and
no TLS session. -/
def plainRequest (header : GoMap (List GoString)) (cookies : List Cookie) : Request :=
  { Method := lit "GET", URL := lit "/", Proto := lit "HTTP/1.1", Host := lit "localhost:8000",
    RemoteAddr := lit "127.0.0.1:50000", RequestURI := lit "/", Header := header, TLS := none,
    Cookies := cookies }

/-- The cookies of the header `Cookie: session=abc123; theme=dark`. -/
def sessionThemeCookies : List Cookie :=
  [requestCookie (lit "session") (lit "abc123"), requestCookie (lit "theme") (lit "dark")]

/-- A header map with a Cloudflare header, a cookie header, a forwarding header
in the canonical form the HTTP layer stores, and a two-valued header. -/
def sampleHeader : GoMap (List GoString) :=
  (((GoMap.empty.set (lit "Cf-Connecting-IP") [lit "1.2.3.4"]).set (lit "Cookie")
    [lit "session=abc123; theme=dark"]).set (lit "X-Real-Ip") [lit "9.9.9.9", lit "8.8.8.8"]).set
    (lit "Accept") [lit "text/html", lit "*/*"]

/-! ## Strings: lemmas -/

theorem stringsRepeat_one_length (b : UInt8) (n : Nat) :
    (stringsRepeat [b] n).length = n := by
  induction n with
  | zero => rfl
  | succ n ih => simp [stringsRepeat, ih, Nat.add_comm]

theorem stringsRepeat_one_mem (b c : UInt8) (n : Nat) (h : c ∈ stringsRepeat [b] n) :
    c = b := by
  induction n with
  | zero => simp [stringsRepeat] at h
  | succ n ih =>
    simp only [stringsRepeat, List.singleton_append, List.mem_cons] at h
    rcases h with h | h
    · exact h
    · exact ih h

theorem lit_X : lit "X" = [0x58] := by decide

theorem maskSensitiveValue_length (v : GoString) :
    (maskSensitiveValue v).length = v.length := by
  unfold maskSensitiveValue
  rw [lit_X]
  exact stringsRepeat_one_length _ _

theorem maskSensitiveValue_allX (v : GoString) : AllX (maskSensitiveValue v) := by
  intro b hb
  unfold maskSensitiveValue at hb
  rw [lit_X] at hb
  exact stringsRepeat_one_mem _ _ _ hb

theorem stringsSplitN2_entry (name value : GoString) (h : (0x3D : UInt8) ∉ name) :
    stringsSplitN2 (entry name value) 0x3D = [name, value] := by
  have hspan : (entry name value).span (fun b => b != 0x3D) = (name, 0x3D :: value) := by
    unfold entry
    induction name with
    | nil => simp [List.span_eq_take_drop]
    | cons a t ih =>
      have ha : a ≠ 0x3D := fun e => h (by simp [e])
      have ht : (0x3D : UInt8) ∉ t := fun e => h (by simp [e])
      have := ih ht
      simp only [List.span_eq_take_drop, Prod.mk.injEq] at this ⊢
      simp [List.takeWhile_cons, List.dropWhile_cons, ha, this.1, this.2]
  unfold stringsSplitN2
  rw [hspan]

theorem entryName_entry (name value : GoString) (h : (0x3D : UInt8) ∉ name) :
    entryName (entry name value) = some name := by
  unfold entryName entry
  have hmem : (0x3D : UInt8) ∈ name ++ 0x3D :: value := by simp
  rw [if_pos hmem]
  congr 1
  induction name with
  | nil => simp
  | cons a t ih =>
    have ha : a ≠ 0x3D := fun e => h (by simp [e])
    have ht : (0x3D : UInt8) ∉ t := fun e => h (by simp [e])
    simp [List.takeWhile_cons, ha, ih ht (by simp)]

/-- What `strings.SplitN(e, "=", 2)` returns determines the name of the entry. -/
theorem entryName_of_split (e key value : GoString)
    (h : stringsSplitN2 e 0x3D = [key, value]) : entryName e = some key := by
  unfold stringsSplitN2 at h
  rw [List.span_eq_take_drop] at h
  unfold entryName
  split at h
  · simp at h
  · rename_i before sep after heq
    simp only [Prod.mk.injEq] at heq
    simp only [List.cons.injEq, and_true] at h
    have hmem : (0x3D : UInt8) ∈ e := by
      by_contra hne
      have : e.dropWhile (fun b => b != 0x3D) = [] := by
        rw [List.dropWhile_eq_nil_iff]
        intro x hx
        have : x ≠ 0x3D := fun e' => hne (e' ▸ hx)
        simpa using this
      rw [this] at heq
      simp at heq
    rw [if_pos hmem, heq.1, h.1]

/-! ## The patterns: search is containment up to case -/

theorem contains_three (r a b c : Nat) :
    [a, b, c].contains r = true ↔ (r = a ∨ r = b ∨ r = c) := by simp

theorem contains_two (r a b : Nat) : [a, b].contains r = true ↔ (r = a ∨ r = b) := by simp

theorem matchRuneFold_iff (c r : Nat) (hc : IsLower c) :
    matchRuneFold c r = true ↔ asciiFold r = c := by
  obtain ⟨hc1, hc2⟩ := hc
  unfold matchRuneFold foldOrbit asciiFold
  have h1 : ¬ (0x41 ≤ c ∧ c ≤ 0x5A) := by omega
  simp only [h1, if_false, hc1, hc2, and_self, if_true]
  by_cases hk : c = 0x6B
  · subst hk
    rw [if_pos rfl, contains_three]
    split_ifs <;> constructor <;> intro h <;> omega
  · by_cases hs : c = 0x73
    · subst hs
      rw [if_neg hk, if_pos rfl, contains_three]
      split_ifs <;> constructor <;> intro h <;> omega
    · rw [if_neg hk, if_neg hs, contains_two]
      split_ifs <;> constructor <;> intro h <;> omega

theorem matchWordAt_iff (w : List Nat) (hw : ∀ c ∈ w, IsLower c) (input : List Nat) :
    matchWordAt w input = true ↔ w <+: input.map asciiFold := by
  induction w generalizing input with
  | nil => simp [matchWordAt]
  | cons c w ih =>
    cases input with
    | nil => simp [matchWordAt]
    | cons r input =>
      have hc : IsLower c := hw c (by simp)
      have hw' : ∀ c ∈ w, IsLower c := fun d hd => hw d (by simp [hd])
      simp only [matchWordAt, Bool.and_eq_true, List.map_cons, List.cons_prefix_cons]
      rw [matchRuneFold_iff c r hc, ih hw' input]
      constructor
      · rintro ⟨h1, h2⟩
        exact ⟨h1.symm, h2⟩
      · rintro ⟨h1, h2⟩
        exact ⟨h1.symm, h2⟩

theorem search_iff (re : Regexp) (hre : ∀ w ∈ re.alternatives, ∀ c ∈ w, IsLower c)
    (input : List Nat) :
    re.search input = true ↔ ∃ w ∈ re.alternatives, w <:+: input.map asciiFold := by
  induction input with
  | nil =>
    simp only [Regexp.search, Regexp.matchAt, List.any_eq_true, List.map_nil, List.infix_nil]
    constructor
    · rintro ⟨w, hw, hm⟩
      exact ⟨w, hw, by simpa using (matchWordAt_iff w (hre w hw) []).1 hm⟩
    · rintro ⟨w, hw, hm⟩
      exact ⟨w, hw, (matchWordAt_iff w (hre w hw) []).2 (by simp [hm])⟩
  | cons r input ih =>
    simp only [Regexp.search, Regexp.matchAt, Bool.or_eq_true, List.any_eq_true, List.map_cons]
    rw [ih]
    constructor
    · rintro (⟨w, hw, hm⟩ | ⟨w, hw, hm⟩)
      · exact ⟨w, hw, ((matchWordAt_iff w (hre w hw) (r :: input)).1 hm).isInfix⟩
      · exact ⟨w, hw, List.infix_cons_iff.2 (Or.inr hm)⟩
    · rintro ⟨w, hw, hm⟩
      rcases List.infix_cons_iff.1 hm with h | h
      · exact Or.inl ⟨w, hw, (matchWordAt_iff w (hre w hw) (r :: input)).2 h⟩
      · exact Or.inr ⟨w, hw, h⟩

theorem envSensitivePattern_lower :
    ∀ w ∈ envSensitivePattern.alternatives, ∀ c ∈ w, IsLower c := by
  unfold IsLower
  decide

theorem cookieSensitivePattern_lower :
    ∀ w ∈ cookieSensitivePattern.alternatives, ∀ c ∈ w, IsLower c := by
  unfold IsLower
  decide

/-- The pattern of `getEnv` matches a name exactly when the name contains one of
the five words up to case. -/
theorem envSensitivePattern_iff (name : GoString) :
    envSensitivePattern.MatchString name = true ↔ ContainsFold envWords name := by
  unfold Regexp.MatchString ContainsFold
  rw [search_iff _ envSensitivePattern_lower]
  simp [envSensitivePattern, envWords]

/-- The pattern of `getCookieInfo` matches a name exactly when the name contains
one of the seven words up to case. -/
theorem cookieSensitivePattern_iff (name : GoString) :
    cookieSensitivePattern.MatchString name = true ↔ ContainsFold cookieWords name := by
  unfold Regexp.MatchString ContainsFold
  rw [search_iff _ cookieSensitivePattern_lower]
  simp [cookieSensitivePattern, cookieWords]

/-! ## Maps: lemmas -/

theorem GoMap.get?_empty {V : Type} (k : GoString) : (GoMap.empty : GoMap V).get? k = none :=
  AList.lookup_empty k

theorem GoMap.get?_set_self {V : Type} (m : GoMap V) (k : GoString) (v : V) :
    (m.set k v).get? k = some v :=
  AList.lookup_insert m

theorem GoMap.get?_set_ne {V : Type} (m : GoMap V) (k k' : GoString) (v : V) (h : k ≠ k') :
    (m.set k' v).get? k = m.get? k :=
  AList.lookup_insert_ne h

theorem GoMap.mem_set {V : Type} (m : GoMap V) (k k' : GoString) (v : V) :
    k ∈ m.set k' v ↔ k = k' ∨ k ∈ m :=
  AList.mem_insert m

theorem GoMap.not_mem_empty {V : Type} (k : GoString) : k ∉ (GoMap.empty : GoMap V) :=
  AList.not_mem_empty k

theorem GoMap.mem_iff_get? {V : Type} (m : GoMap V) (k : GoString) :
    k ∈ m ↔ ∃ v, m.get? k = some v := by
  unfold GoMap.get?
  rw [← AList.lookup_isSome, Option.isSome_iff_exists]

/-! ## The environment collector: lemmas -/

theorem maskSensitiveValue_eq_replicate (v : GoString) :
    maskSensitiveValue v = List.replicate v.length 0x58 := by
  unfold maskSensitiveValue
  rw [lit_X]
  induction v.length with
  | zero => rfl
  | succ n ih => simp [stringsRepeat, ih, List.replicate_succ]

theorem getEnvStep_of_split (env : GoMap GoString) (e key value : GoString)
    (h : stringsSplitN2 e 0x3D = [key, value]) :
    getEnvStep env e =
      env.set key
        (if envSensitivePattern.MatchString key then maskSensitiveValue value else value) := by
  unfold getEnvStep
  rw [h]

/-- An entry that does not name `k` leaves the value reported for `k` alone. -/
theorem getEnvStep_get?_other (env : GoMap GoString) (e k : GoString)
    (h : entryName e ≠ some k) : (getEnvStep env e).get? k = env.get? k := by
  unfold getEnvStep
  split
  · rename_i key value hsplit
    have hk : k ≠ key := by
      intro hk
      exact h (hk ▸ entryName_of_split e key value hsplit)
    exact GoMap.get?_set_ne _ _ _ _ hk
  · rfl

theorem getEnv_append_singleton (init : List GoString) (last : GoString) :
    getEnv (init ++ [last]) = getEnvStep (getEnv init) last := by
  unfold getEnv
  rw [List.foldl_append]
  rfl

/-- When `name=value` is the only entry of the snapshot that names `name`,
`getEnv` reports `name` with `value`, masked if the pattern matches `name`. -/
theorem getEnv_get?_of_unique (environ : List GoString) (name value : GoString)
    (hname : (0x3D : UInt8) ∉ name) (hmem : entry name value ∈ environ)
    (huniq : ∀ e ∈ environ, entryName e = some name → e = entry name value) :
    (getEnv environ).get? name =
      some (if envSensitivePattern.MatchString name then maskSensitiveValue value
        else value) := by
  induction environ using List.reverseRecOn with
  | nil => simp at hmem
  | append_singleton init last ih =>
    rw [getEnv_append_singleton]
    by_cases hlast : entryName last = some name
    · have hl : last = entry name value := huniq last (by simp) hlast
      rw [hl, getEnvStep_of_split _ _ _ _ (stringsSplitN2_entry name value hname)]
      exact GoMap.get?_set_self _ _ _
    · rw [getEnvStep_get?_other _ _ _ hlast]
      have hmem' : entry name value ∈ init := by
        rcases List.mem_append.1 hmem with h | h
        · exact h
        · exfalso
          apply hlast
          rw [List.mem_singleton.1 h |>.symm]
          exact entryName_entry name value hname
      exact ih hmem' (fun e he hn => huniq e (List.mem_append_left _ he) hn)

/-- In a snapshot with pairwise distinct names two entries with one name are one entry. -/
theorem DistinctNames.unique {environ : List GoString} (hd : DistinctNames environ)
    {a b n : GoString} (ha : a ∈ environ) (hb : b ∈ environ)
    (hna : entryName a = some n) (hnb : entryName b = some n) : a = b := by
  unfold DistinctNames at hd
  induction environ with
  | nil => simp at ha
  | cons x xs ih =>
    cases hx : entryName x with
    | none =>
      rw [List.filterMap_cons_none hx] at hd
      have ha' : a ∈ xs := by
        rcases List.mem_cons.1 ha with h | h
        · rw [h, hx] at hna; simp at hna
        · exact h
      have hb' : b ∈ xs := by
        rcases List.mem_cons.1 hb with h | h
        · rw [h, hx] at hnb; simp at hnb
        · exact h
      exact ih hd ha' hb'
    | some m =>
      rw [List.filterMap_cons_some hx, List.nodup_cons] at hd
      rcases List.mem_cons.1 ha with h | h <;> rcases List.mem_cons.1 hb with h' | h'
      · rw [h, h']
      · exfalso
        apply hd.1
        rw [h, hx] at hna
        rw [Option.some.inj hna]
        exact List.mem_filterMap.2 ⟨b, h', hnb⟩
      · exfalso
        apply hd.1
        rw [h', hx] at hnb
        rw [Option.some.inj hnb]
        exact List.mem_filterMap.2 ⟨a, h, hna⟩
      · exact ih hd.2 h h'

/-- Every value `getEnv` reports under a name the pattern matches is a run of `X`. -/
theorem getEnv_sensitive_allX (environ : List GoString) (name w : GoString)
    (hs : envSensitivePattern.MatchString name = true)
    (hw : (getEnv environ).get? name = some w) : AllX w := by
  induction environ using List.reverseRecOn generalizing w with
  | nil =>
    unfold getEnv at hw
    simp only [List.foldl_nil] at hw
    rw [GoMap.get?_empty] at hw
    simp at hw
  | append_singleton init last ih =>
    rw [getEnv_append_singleton] at hw
    by_cases hlast : entryName last = some name
    · unfold getEnvStep at hw
      split at hw
      · rename_i key value hsplit
        have hk : key = name := by
          have := entryName_of_split last key value hsplit
          rw [hlast] at this
          exact (Option.some.inj this).symm
        rw [hk, GoMap.get?_set_self, if_pos hs] at hw
        rw [← Option.some.inj hw]
        exact maskSensitiveValue_allX value
      · exact ih w hw
    · rw [getEnvStep_get?_other _ _ _ hlast] at hw
      exact ih w hw

/-- Every name of the snapshot is a key of the map `getEnv` returns. -/
theorem getEnv_mem_of_entry (environ : List GoString) (name value : GoString)
    (hname : (0x3D : UInt8) ∉ name) (hmem : entry name value ∈ environ) :
    name ∈ getEnv environ := by
  induction environ using List.reverseRecOn with
  | nil => simp at hmem
  | append_singleton init last ih =>
    rw [getEnv_append_singleton]
    rcases List.mem_append.1 hmem with h | h
    · have := ih h
      unfold getEnvStep
      split
      · exact (GoMap.mem_set _ _ _ _).2 (Or.inr this)
      · exact this
    · rw [← List.mem_singleton.1 h,
        getEnvStep_of_split _ _ _ _ (stringsSplitN2_entry name value hname)]
      exact (GoMap.mem_set _ _ _ _).2 (Or.inl rfl)

/-! ## The environment collector: properties -/

/-- C1: in a snapshot whose entries have pairwise distinct names, every entry
`NAME=VALUE` is reported by `getEnv` under the key `NAME`; the reported value is
the run of `X` as long as `VALUE` when `NAME` contains, up to case, one of `key`,
`token`, `secret`, `password`, `credential`, and it is `VALUE` itself for every
other name.  Case is Unicode simple case folding, as Go's `(?i)` reads it. -/
theorem getEnv_reports_entry (environ : List GoString) (hd : DistinctNames environ)
    (name value : GoString) (hname : (0x3D : UInt8) ∉ name)
    (hmem : entry name value ∈ environ) :
    (ContainsFold envWords name →
        (getEnv environ).get? name = some (List.replicate value.length 0x58)) ∧
      (¬ ContainsFold envWords name → (getEnv environ).get? name = some value) := by
  have hget := getEnv_get?_of_unique environ name value hname hmem
    (fun e he hn => hd.unique he hmem hn (entryName_entry name value hname))
  constructor
  · intro hs
    rw [hget, if_pos ((envSensitivePattern_iff name).2 hs), maskSensitiveValue_eq_replicate]
  · intro hs
    have : ¬ envSensitivePattern.MatchString name = true :=
      fun h => hs ((envSensitivePattern_iff name).1 h)
    rw [hget, if_neg this]

/-- Witness of C1: in the snapshot `DB_PASSWORD=hunter2`, `PATH=/bin` the first
value is reported as seven `X` and the second unchanged. -/
theorem getEnv_reports_entry_witness :
    DistinctNames [lit "DB_PASSWORD=hunter2", lit "PATH=/bin"] ∧
      (getEnv [lit "DB_PASSWORD=hunter2", lit "PATH=/bin"]).get? (lit "DB_PASSWORD") =
        some (lit "XXXXXXX") ∧
      (getEnv [lit "DB_PASSWORD=hunter2", lit "PATH=/bin"]).get? (lit "PATH") =
        some (lit "/bin") :=
  ⟨by decide,
   (getEnv_reports_entry [lit "DB_PASSWORD=hunter2", lit "PATH=/bin"] (by decide)
      (lit "DB_PASSWORD") (lit "hunter2") (by decide) (by decide)).1
      (by decide),
   (getEnv_reports_entry [lit "DB_PASSWORD=hunter2", lit "PATH=/bin"] (by decide)
      (lit "PATH") (lit "/bin") (by decide) (by decide)).2
      (by decide)⟩

/-- C2: masking keeps the length: `maskSensitiveValue v` consists of the
character `X` only and has as many bytes as `v`; the empty string masks to the
empty string. -/
theorem maskSensitiveValue_spec (v : GoString) :
    AllX (maskSensitiveValue v) ∧ (maskSensitiveValue v).length = v.length ∧
      maskSensitiveValue [] = [] :=
  ⟨maskSensitiveValue_allX v, maskSensitiveValue_length v, rfl⟩

/-- C3 as stated fails: for the snapshot `API_KEY=X` the name is sensitive, the
value is not empty, and `getEnv` reports the value `X` it was given. -/
theorem getEnv_masked_eq_original :
    ¬ ∀ (environ : List GoString) (name value : GoString), DistinctNames environ →
        (0x3D : UInt8) ∉ name → ContainsFold envWords name → entry name value ∈ environ →
        (getEnv environ).get? name = some value → value = [] := by
  intro h
  have := h [lit "API_KEY=X"] (lit "API_KEY") (lit "X") (by decide) (by decide)
    (by decide) (by decide) (by decide)
  exact absurd this (by decide)

/-- C3, amended: for every entry `NAME=VALUE` whose `NAME` matches the
environment sensitivity pattern, `getEnv` reports for `NAME` a run of `X`; so
the reported value equals `VALUE` only if `VALUE` consists of `X` characters only
(the empty string is the case of no characters). -/
theorem getEnv_sensitive_differs (environ : List GoString) (name value : GoString)
    (hname : (0x3D : UInt8) ∉ name) (hs : ContainsFold envWords name)
    (hmem : entry name value ∈ environ) :
    (∃ w, (getEnv environ).get? name = some w ∧ AllX w) ∧
      ((getEnv environ).get? name = some value → AllX value) := by
  have hm := (envSensitivePattern_iff name).2 hs
  constructor
  · obtain ⟨w, hw⟩ := (GoMap.mem_iff_get? _ _).1 (getEnv_mem_of_entry environ name value hname hmem)
    exact ⟨w, hw, getEnv_sensitive_allX environ name w hm hw⟩
  · intro hv
    exact getEnv_sensitive_allX environ name value hm hv

/-- Witness of the amended C3: `API_KEY=abc` is reported as a run of `X`. -/
theorem getEnv_sensitive_differs_witness :
    (∃ w, (getEnv [lit "API_KEY=abc"]).get? (lit "API_KEY") = some w ∧ AllX w) ∧
      ((getEnv [lit "API_KEY=abc"]).get? (lit "API_KEY") = some (lit "abc") →
        AllX (lit "abc")) :=
  getEnv_sensitive_differs [lit "API_KEY=abc"] (lit "API_KEY") (lit "abc") (by decide)
    (by decide) (by decide)

/-- C4 as stated fails: the value `sk_live_12345` has 13 bytes, not 14, and
`getEnv` does not report the 14 `X` of the scenario for `API_TOKEN`. -/
theorem api_token_scenario_miscounts :
    (getEnv [lit "API_TOKEN=sk_live_12345"]).get? (lit "API_TOKEN") ≠
        some (lit "XXXXXXXXXXXXXX") ∧
      (lit "sk_live_12345").length ≠ 14 := by
  decide

/-- C4, amended: for the environment of the single entry
`API_TOKEN=sk_live_12345`, `getEnv` reports for `API_TOKEN` the value
`XXXXXXXXXXXXX`, 13 `X` characters, the length of the original value. -/
theorem getEnv_api_token :
    (getEnv [lit "API_TOKEN=sk_live_12345"]).get? (lit "API_TOKEN") =
        some (lit "XXXXXXXXXXXXX") ∧
      lit "XXXXXXXXXXXXX" = List.replicate 13 0x58 ∧
      (lit "sk_live_12345").length = 13 := by
  decide

/-- C7: `getEnv` splits an entry on its first `=` only: when `N` has no `=`, is
not sensitive, and `N=V` is the entry of the snapshot that names `N`, the split
gives `N` and the whole of `V`, and `getEnv` reports `V` for `N`, whatever
further `=` the value `V` holds. -/
theorem getEnv_splits_on_first_eq (environ : List GoString) (name value : GoString)
    (hname : (0x3D : UInt8) ∉ name) (hns : ¬ ContainsFold envWords name)
    (hmem : entry name value ∈ environ)
    (huniq : ∀ e ∈ environ, entryName e = some name → e = entry name value) :
    stringsSplitN2 (entry name value) 0x3D = [name, value] ∧
      (getEnv environ).get? name = some value := by
  refine ⟨stringsSplitN2_entry name value hname, ?_⟩
  have : ¬ envSensitivePattern.MatchString name = true :=
    fun h => hns ((envSensitivePattern_iff name).1 h)
  rw [getEnv_get?_of_unique environ name value hname hmem huniq, if_neg this]

/-- Witness of C7: the entry `A=b=c` is reported as name `A` with value `b=c`. -/
theorem getEnv_splits_on_first_eq_witness :
    stringsSplitN2 (lit "A=b=c") 0x3D = [lit "A", lit "b=c"] ∧
      (getEnv [lit "A=b=c", lit "HOME=/root"]).get? (lit "A") = some (lit "b=c") :=
  getEnv_splits_on_first_eq [lit "A=b=c", lit "HOME=/root"] (lit "A") (lit "b=c") (by decide)
    (by decide) (by decide) (by decide)

/-- The environment pattern reads case the way Go folds it: a name spelt with
U+212A (Kelvin sign) for `k` is matched. -/
theorem envSensitivePattern_kelvin :
    envSensitivePattern.MatchString ([0xE2, 0x84, 0xAA] ++ lit "EY") = true := by
  decide

/-! ## The cookie collector: lemmas -/

theorem cookieLoop_eq (cookies : List Cookie) (done rest : List (GoMap GoString))
    (h : rest.length = cookies.length) :
    cookieLoop done.length cookies (done ++ rest) = done ++ cookies.map cookieData := by
  induction cookies generalizing done rest with
  | nil =>
    have : rest = [] := List.length_eq_zero.1 h
    simp [cookieLoop, this]
  | cons c cs ih =>
    cases rest with
    | nil => simp at h
    | cons x xs =>
      have hxs : xs.length = cs.length := by simpa using h
      have hset : (done ++ x :: xs).set done.length (cookieData c) =
          (done ++ [cookieData c]) ++ xs := by
        rw [List.set_append_right _ _ (Nat.le_refl _)]
        simp
      have hlen : done.length + 1 = (done ++ [cookieData c]).length := by simp
      rw [cookieLoop, hset, hlen, ih (done ++ [cookieData c]) xs hxs]
      simp

/-- The loop of `getCookieInfo` fills the slice with one record per cookie, in order. -/
theorem getCookieInfo_eq_map (r : Request) : getCookieInfo r = r.Cookies.map cookieData := by
  unfold getCookieInfo
  have := cookieLoop_eq r.Cookies [] (List.replicate r.Cookies.length GoMap.empty) (by simp)
  simpa using this

theorem cookieData_name (c : Cookie) : (cookieData c).get? (lit "Name") = some c.Name := by
  unfold cookieData
  split <;> rfl

theorem cookieData_path (c : Cookie) : (cookieData c).get? (lit "Path") = some c.Path := by
  unfold cookieData
  split <;> rfl

theorem cookieData_domain (c : Cookie) : (cookieData c).get? (lit "Domain") = some c.Domain := by
  unfold cookieData
  split <;> rfl

theorem cookieData_value (c : Cookie) :
    (cookieData c).get? (lit "Value") =
      some (if cookieSensitivePattern.MatchString c.Name then maskSensitiveValue c.Value
        else c.Value) := by
  unfold cookieData
  split
  · rfl
  · rfl

/-! ## The cookie collector: properties -/

/-- C5: for every list of request cookies and every cookie `c` in it, at index
`i`, the record `getCookieInfo` emits at index `i` has `Value` equal to the run
of `X` as long as `c.Value` when `c.Name` contains, up to case, one of `token`,
`session`, `auth`, `key`, `secret`, `password`, `credential`, and equal to
`c.Value` otherwise; its `Name`, `Path` and `Domain` are those of `c`. -/
theorem getCookieInfo_record (r : Request) (i : Nat) (c : Cookie)
    (hc : r.Cookies[i]? = some c) :
    ∃ record, (getCookieInfo r)[i]? = some record ∧
      (ContainsFold cookieWords c.Name →
        record.get? (lit "Value") = some (List.replicate c.Value.length 0x58)) ∧
      (¬ ContainsFold cookieWords c.Name → record.get? (lit "Value") = some c.Value) ∧
      record.get? (lit "Name") = some c.Name ∧
      record.get? (lit "Path") = some c.Path ∧
      record.get? (lit "Domain") = some c.Domain := by
  refine ⟨cookieData c, ?_, ?_, ?_, cookieData_name c, cookieData_path c, cookieData_domain c⟩
  · rw [getCookieInfo_eq_map, List.getElem?_map, hc]
    rfl
  · intro hs
    rw [cookieData_value, if_pos ((cookieSensitivePattern_iff c.Name).2 hs),
      maskSensitiveValue_eq_replicate]
  · intro hs
    have : ¬ cookieSensitivePattern.MatchString c.Name = true :=
      fun h => hs ((cookieSensitivePattern_iff c.Name).1 h)
    rw [cookieData_value, if_neg this]

/-- Witness of C5: the cookies `session=abc123` and `theme=dark` give the value
`XXXXXX` for `session` and `dark` for `theme`. -/
theorem getCookieInfo_record_witness :
    (∃ record, (getCookieInfo (plainRequest sampleHeader sessionThemeCookies))[0]? = some record ∧
        record.get? (lit "Value") = some (lit "XXXXXX") ∧
        record.get? (lit "Name") = some (lit "session")) ∧
      (∃ record, (getCookieInfo (plainRequest sampleHeader sessionThemeCookies))[1]? = some record ∧
        record.get? (lit "Value") = some (lit "dark") ∧
        record.get? (lit "Name") = some (lit "theme")) := by
  constructor
  · obtain ⟨record, h1, h2, _, h4, _⟩ :=
      getCookieInfo_record (plainRequest sampleHeader sessionThemeCookies) 0
        (requestCookie (lit "session") (lit "abc123")) rfl
    exact ⟨record, h1, h2 (by decide), h4⟩
  · obtain ⟨record, h1, _, h3, h4, _⟩ :=
      getCookieInfo_record (plainRequest sampleHeader sessionThemeCookies) 1
        (requestCookie (lit "theme") (lit "dark")) rfl
    exact ⟨record, h1, h3 (by decide), h4⟩

/-- C6: `getCookieInfo` returns exactly as many records as the request has
cookies, in the same order: the record at every index `i` carries the name of
the cookie at index `i`; for zero cookies the result is the empty sequence. -/
theorem getCookieInfo_length_order (r : Request) :
    (getCookieInfo r).length = r.Cookies.length ∧
      (∀ (i : Nat) (c : Cookie), r.Cookies[i]? = some c →
        ∃ record, (getCookieInfo r)[i]? = some record ∧
          record.get? (lit "Name") = some c.Name) ∧
      (r.Cookies = [] → getCookieInfo r = []) := by
  refine ⟨?_, ?_, ?_⟩
  · rw [getCookieInfo_eq_map, List.length_map]
  · intro i c hc
    refine ⟨cookieData c, ?_, cookieData_name c⟩
    rw [getCookieInfo_eq_map, List.getElem?_map, hc]
    rfl
  · intro h
    rw [getCookieInfo_eq_map, h]
    rfl

/-- Witness of C6: two cookies give two records, `session` first and `theme` second. -/
theorem getCookieInfo_length_order_witness :
    (getCookieInfo (plainRequest sampleHeader sessionThemeCookies)).length = 2 ∧
      (getCookieInfo (plainRequest sampleHeader sessionThemeCookies)).map
        (fun record => record.get? (lit "Name")) = [some (lit "session"), some (lit "theme")] ∧
      getCookieInfo (plainRequest sampleHeader []) = [] :=
  ⟨(getCookieInfo_length_order (plainRequest sampleHeader sessionThemeCookies)).1, by decide,
   (getCookieInfo_length_order (plainRequest sampleHeader [])).2.2 rfl⟩

/-! ## The header collectors: lemmas -/

/-- Go's `strings.Join` is the concatenation of the elements with the separator
between neighbours. -/
theorem stringsJoin_eq_intercalate (elems : List GoString) (sep : GoString) :
    stringsJoin elems sep = sep.intercalate elems := by
  induction elems with
  | nil => rfl
  | cons a t ih =>
    cases t with
    | nil => simp [stringsJoin, List.intercalate]
    | cons b rest =>
      rw [stringsJoin, ih]
      simp [List.intercalate, List.intersperse]

theorem stringsJoin_singleton (v sep : GoString) : stringsJoin [v] sep = v := rfl

/-- A loop over the entries of a map that copies the entries whose name passes
the test `P`, with the values transformed by `g`: what the result holds for `k`. -/
theorem copyLoop_get? (P : GoString → Prop) [DecidablePred P] (g : List GoString → GoString)
    (l : List (Sigma fun _ : GoString => List GoString)) (hl : l.NodupKeys)
    (acc : GoMap GoString) (k : GoString) :
    (l.foldl (fun m nv => if P nv.1 then m.set nv.1 (g nv.2) else m) acc).get? k =
      match l.dlookup k with
      | some v => if P k then some (g v) else acc.get? k
      | none => acc.get? k := by
  induction l generalizing acc with
  | nil => rfl
  | cons hd t ih =>
    obtain ⟨k0, v0⟩ := hd
    rw [List.nodupKeys_cons] at hl
    rw [List.foldl_cons, ih hl.2]
    by_cases hk : k = k0
    · subst hk
      rw [List.dlookup_cons_eq, List.dlookup_eq_none.2 hl.1]
      by_cases hp : P k
      · simp only [hp, if_true]
        exact GoMap.get?_set_self _ _ _
      · simp only [hp, if_false]
    · rw [List.dlookup_cons_ne _ _ hk]
      have hacc : (if P k0 then acc.set k0 (g v0) else acc).get? k = acc.get? k := by
        by_cases hp : P k0
        · simp only [hp, if_true]
          exact GoMap.get?_set_ne _ _ _ _ hk
        · simp only [hp, if_false]
      simp only [hacc]

/-- The copy loop run on a whole map, from the empty map. -/
theorem copyLoop_map_get? (P : GoString → Prop) [DecidablePred P] (g : List GoString → GoString)
    (h : GoMap (List GoString)) (k : GoString) :
    (h.entries.foldl (fun m nv => if P nv.1 then m.set nv.1 (g nv.2) else m)
        GoMap.empty).get? k =
      if P k then (h.get? k).map g else none := by
  rw [copyLoop_get? P g h.entries h.nodupKeys]
  rw [GoMap.get?_empty]
  unfold GoMap.get? AList.lookup
  cases h.entries.dlookup k with
  | none => simp
  | some v => rfl

theorem getHeaders_get? (r : Request) (k : GoString) :
    (getHeaders r).get? k =
      if k ≠ lit "Cookie" then (r.Header.get? k).map (fun v => stringsJoin v (lit ", "))
      else none :=
  copyLoop_map_get? (fun k => k ≠ lit "Cookie") (fun v => stringsJoin v (lit ", ")) r.Header k

theorem getCloudflareInfo_get? (r : Request) (k : GoString) :
    (getCloudflareInfo r).get? k =
      if stringsHasPrefix k (lit "Cf-") = true then
        (r.Header.get? k).map (fun v => stringsJoin v (lit ", "))
      else none :=
  copyLoop_map_get? (fun k => stringsHasPrefix k (lit "Cf-") = true)
    (fun v => stringsJoin v (lit ", ")) r.Header k

theorem stringsHasPrefix_iff (s pre : GoString) : stringsHasPrefix s pre = true ↔ pre <+: s := by
  unfold stringsHasPrefix
  exact List.isPrefixOf_iff_prefix

theorem GoMap.mem_foldl_set {V : Type} (l : List (GoString × V)) (acc : GoMap V) (k : GoString) :
    k ∈ l.foldl (fun m kv => m.set kv.1 kv.2) acc ↔ k ∈ acc ∨ k ∈ l.map Prod.fst := by
  induction l generalizing acc with
  | nil => simp
  | cons hd t ih =>
    rw [List.foldl_cons, ih, GoMap.mem_set, List.map_cons, List.mem_cons]
    constructor
    · rintro ((h | h) | h)
      · exact Or.inr (Or.inl h)
      · exact Or.inl h
      · exact Or.inr (Or.inr h)
    · rintro (h | h | h)
      · exact Or.inl (Or.inr h)
      · exact Or.inl (Or.inl h)
      · exact Or.inr h

/-- The keys of a map literal are the keys written in it. -/
theorem GoMap.mem_ofList {V : Type} (l : List (GoString × V)) (k : GoString) :
    k ∈ GoMap.ofList l ↔ k ∈ l.map Prod.fst := by
  unfold GoMap.ofList
  rw [GoMap.mem_foldl_set]
  constructor
  · rintro (h | h)
    · exact absurd h (GoMap.not_mem_empty k)
    · exact h
  · exact Or.inr

/-! ## The header collectors: properties -/

/-- C8: the keys of `getHeaders(r)` are exactly the header names other than
`Cookie`, and each of them is reported with its values joined by a comma and a
space, in their order; a single value is reported unchanged. -/
theorem getHeaders_spec (r : Request) :
    (∀ name, name ∈ getHeaders r ↔ name ∈ r.Header ∧ name ≠ lit "Cookie") ∧
      (∀ name values, r.Header.get? name = some values → name ≠ lit "Cookie" →
        (getHeaders r).get? name = some ((lit ", ").intercalate values)) ∧
      (∀ name value, r.Header.get? name = some [value] → name ≠ lit "Cookie" →
        (getHeaders r).get? name = some value) := by
  refine ⟨?_, ?_, ?_⟩
  · intro name
    rw [GoMap.mem_iff_get?, GoMap.mem_iff_get?, getHeaders_get?]
    by_cases hn : name ≠ lit "Cookie"
    · rw [if_pos hn]
      constructor
      · rintro ⟨v, hv⟩
        cases hh : r.Header.get? name with
        | none => rw [hh] at hv; simp at hv
        | some vs => exact ⟨⟨vs, rfl⟩, hn⟩
      · rintro ⟨⟨vs, hvs⟩, _⟩
        exact ⟨stringsJoin vs (lit ", "), by rw [hvs]; rfl⟩
    · rw [if_neg hn]
      constructor
      · rintro ⟨v, hv⟩
        simp at hv
      · rintro ⟨_, h⟩
        exact absurd h hn
  · intro name values hv hn
    rw [getHeaders_get?, if_pos hn, hv, ← stringsJoin_eq_intercalate]
    rfl
  · intro name value hv hn
    rw [getHeaders_get?, if_pos hn, hv]
    rfl

/-- Witness of C8: of the four sample headers the three other than `Cookie` are
reported, the two values of `Accept` joined in order. -/
theorem getHeaders_spec_witness :
    (getHeaders (plainRequest sampleHeader [])).get? (lit "Accept") =
        some (lit "text/html, */*") ∧
      (getHeaders (plainRequest sampleHeader [])).get? (lit "Cf-Connecting-IP") =
        some (lit "1.2.3.4") ∧
      lit "Cookie" ∈ (plainRequest sampleHeader []).Header ∧
      lit "Cookie" ∉ getHeaders (plainRequest sampleHeader []) :=
  ⟨(getHeaders_spec (plainRequest sampleHeader [])).2.1 (lit "Accept")
      [lit "text/html", lit "*/*"] (by decide) (by decide),
   (getHeaders_spec (plainRequest sampleHeader [])).2.2 (lit "Cf-Connecting-IP")
      (lit "1.2.3.4") (by decide) (by decide),
   by decide,
   fun h => (((getHeaders_spec (plainRequest sampleHeader [])).1 (lit "Cookie")).1 h).2 rfl⟩

theorem readMIMEHeaderLine_get?_other (m : GoMap (List GoString)) (line : GoString × GoString)
    (k : GoString) (h : CanonicalMIMEHeaderKey line.1 ≠ k) :
    (readMIMEHeaderLine m line).get? k = m.get? k := by
  unfold readMIMEHeaderLine
  simp only
  split
  · rfl
  · exact GoMap.get?_set_ne _ _ _ _ (fun e => h e.symm)

theorem readMIMEHeaderLine_get?_self (m : GoMap (List GoString)) (name value : GoString)
    (hne : CanonicalMIMEHeaderKey name ≠ []) :
    (readMIMEHeaderLine m (name, value)).get? (CanonicalMIMEHeaderKey name) =
      some ((m.get? (CanonicalMIMEHeaderKey name)).getD [] ++ [value]) := by
  unfold readMIMEHeaderLine
  simp only [if_neg hne]
  exact GoMap.get?_set_self _ _ _

theorem readMIMEHeader_get?_others (lines : List (GoString × GoString))
    (m : GoMap (List GoString)) (k : GoString)
    (h : ∀ l ∈ lines, CanonicalMIMEHeaderKey l.1 ≠ k) :
    (lines.foldl readMIMEHeaderLine m).get? k = m.get? k := by
  induction lines generalizing m with
  | nil => rfl
  | cons l t ih =>
    rw [List.foldl_cons, ih _ (fun x hx => h x (List.mem_cons_of_mem _ hx)),
      readMIMEHeaderLine_get?_other _ _ _ (h l (by simp))]

/-- A header line that is the only one with its canonical name is stored under
that name with its one value. -/
theorem readMIMEHeader_get?_single (pre post : List (GoString × GoString))
    (name value : GoString) (hne : CanonicalMIMEHeaderKey name ≠ [])
    (hpre : ∀ l ∈ pre, CanonicalMIMEHeaderKey l.1 ≠ CanonicalMIMEHeaderKey name)
    (hpost : ∀ l ∈ post, CanonicalMIMEHeaderKey l.1 ≠ CanonicalMIMEHeaderKey name) :
    (readMIMEHeader (pre ++ (name, value) :: post)).get? (CanonicalMIMEHeaderKey name) =
      some [value] := by
  unfold readMIMEHeader
  rw [List.foldl_append, List.foldl_cons, readMIMEHeader_get?_others post _ _ hpost]
  have hnone : (pre.foldl readMIMEHeaderLine GoMap.empty).get? (CanonicalMIMEHeaderKey name) =
      none := by
    rw [readMIMEHeader_get?_others pre _ _ hpre]
    exact GoMap.get?_empty _
  rw [readMIMEHeaderLine_get?_self _ _ _ hne, hnone]
  rfl

/-- C9 as stated fails in its example: `net/http` stores the received header
`Cf-Connecting-IP: 1.2.3.4` under the canonical name `Cf-Connecting-Ip`, so the
cloudflare report of that request has no entry `Cf-Connecting-IP`; it has the
entry `Cf-Connecting-Ip`. -/
theorem cf_connecting_ip_stored_canonical :
    CanonicalMIMEHeaderKey (lit "Cf-Connecting-IP") = lit "Cf-Connecting-Ip" ∧
      (getCloudflareInfo (plainRequest
        (readMIMEHeader [(lit "Cf-Connecting-IP", lit "1.2.3.4")]) [])).get?
          (lit "Cf-Connecting-IP") = none ∧
      (getCloudflareInfo (plainRequest
        (readMIMEHeader [(lit "Cf-Connecting-IP", lit "1.2.3.4")]) [])).get?
          (lit "Cf-Connecting-IP") ≠ some (lit "1.2.3.4") ∧
      (getCloudflareInfo (plainRequest
        (readMIMEHeader [(lit "Cf-Connecting-IP", lit "1.2.3.4")]) [])).keys =
          [lit "Cf-Connecting-Ip"] := by
  decide

/-- C9, amended: `getCloudflareInfo(r)` holds exactly the headers whose name
starts with the bytes `Cf-`, each with its values joined by a comma and a space,
and no other header; a request carrying the header `Cf-Connecting-IP` with the
value `1.2.3.4` yields the entry `Cf-Connecting-Ip` with value `1.2.3.4`, the
name being the canonical form under which `net/http` stores the header. -/
theorem getCloudflareInfo_spec (r : Request) :
    (∀ name, name ∈ getCloudflareInfo r ↔ name ∈ r.Header ∧ lit "Cf-" <+: name) ∧
      (∀ name values, r.Header.get? name = some values → lit "Cf-" <+: name →
        (getCloudflareInfo r).get? name = some ((lit ", ").intercalate values)) ∧
      (∀ pre post : List (GoString × GoString),
        r.Header = readMIMEHeader (pre ++ (lit "Cf-Connecting-IP", lit "1.2.3.4") :: post) →
        (∀ l ∈ pre ++ post, CanonicalMIMEHeaderKey l.1 ≠ lit "Cf-Connecting-Ip") →
        (getCloudflareInfo r).get? (lit "Cf-Connecting-Ip") = some (lit "1.2.3.4")) := by
  refine ⟨?_, ?_, ?_⟩
  · intro name
    rw [GoMap.mem_iff_get?, GoMap.mem_iff_get?, getCloudflareInfo_get?]
    by_cases hn : stringsHasPrefix name (lit "Cf-") = true
    · rw [if_pos hn]
      constructor
      · rintro ⟨v, hv⟩
        cases hh : r.Header.get? name with
        | none => rw [hh] at hv; simp at hv
        | some vs => exact ⟨⟨vs, rfl⟩, (stringsHasPrefix_iff _ _).1 hn⟩
      · rintro ⟨⟨vs, hvs⟩, _⟩
        exact ⟨stringsJoin vs (lit ", "), by rw [hvs]; rfl⟩
    · rw [if_neg hn]
      constructor
      · rintro ⟨v, hv⟩
        simp at hv
      · rintro ⟨_, h⟩
        exact absurd ((stringsHasPrefix_iff _ _).2 h) hn
  · intro name values hv hn
    rw [getCloudflareInfo_get?, if_pos ((stringsHasPrefix_iff _ _).2 hn), hv,
      ← stringsJoin_eq_intercalate]
    rfl
  · intro pre post hr hother
    have hcanon : CanonicalMIMEHeaderKey (lit "Cf-Connecting-IP") = lit "Cf-Connecting-Ip" := by
      decide
    have hstored := readMIMEHeader_get?_single pre post (lit "Cf-Connecting-IP") (lit "1.2.3.4")
      (by decide)
      (fun l hl => by rw [hcanon]; exact hother l (List.mem_append_left _ hl))
      (fun l hl => by rw [hcanon]; exact hother l (List.mem_append_right _ hl))
    rw [hcanon, ← hr] at hstored
    rw [getCloudflareInfo_get?, if_pos (by decide), hstored]
    rfl

/-- Witness of the amended C9: a request received with the headers `Accept`,
`Cf-Connecting-IP` and `cf-ray` reports `Cf-Connecting-Ip` with `1.2.3.4`. -/
theorem getCloudflareInfo_spec_witness :
    (getCloudflareInfo (plainRequest (readMIMEHeader
        [(lit "Accept", lit "*/*"), (lit "Cf-Connecting-IP", lit "1.2.3.4"),
         (lit "cf-ray", lit "8a1b2c3d")]) [])).get? (lit "Cf-Connecting-Ip") =
      some (lit "1.2.3.4") :=
  (getCloudflareInfo_spec (plainRequest (readMIMEHeader
      [(lit "Accept", lit "*/*"), (lit "Cf-Connecting-IP", lit "1.2.3.4"),
       (lit "cf-ray", lit "8a1b2c3d")]) [])).2.2
    [(lit "Accept", lit "*/*")] [(lit "cf-ray", lit "8a1b2c3d")] rfl (by decide)

/-- C10: whatever headers the request has, the keys of `getTraefikInfo(r)` are
exactly the ten forwarding names, and each key maps to the first value the
header map holds for it, or to the empty string when it holds none.  The lookup
is `r.Header.Get`, which reads the map at the canonical form of the name, the
form under which the HTTP layer stores a received header. -/
theorem getTraefikInfo_spec (r : Request) :
    (∀ k, k ∈ getTraefikInfo r ↔ k ∈ traefikNames) ∧
      traefikNames.length = 10 ∧ traefikNames.Nodup ∧
      (∀ k ∈ traefikNames, (getTraefikInfo r).get? k =
        some (((r.Header.get? (CanonicalMIMEHeaderKey k)).getD []).headD [])) ∧
      traefikNames.map CanonicalMIMEHeaderKey =
        [lit "X-Forwarded-For", lit "X-Forwarded-Proto", lit "X-Forwarded-Host",
         lit "X-Forwarded-Port", lit "X-Real-Ip", lit "X-Forwarded-Server",
         lit "X-Forwarded-User", lit "X-Forwarded-Group", lit "X-Forwarded-Uri",
         lit "X-Original-Url"] := by
  have hget : ∀ k ∈ traefikNames, (getTraefikInfo r).get? k = some (HeaderGet r.Header k) := by
    intro k hk
    simp only [traefikNames, List.mem_cons, List.mem_singleton, List.mem_nil_iff, or_false] at hk
    rcases hk with h | h | h | h | h | h | h | h | h | h <;> subst h <;> rfl
  refine ⟨?_, by decide, by decide, ?_, by decide⟩
  · intro k
    unfold getTraefikInfo
    rw [GoMap.mem_ofList]
    rfl
  · intro k hk
    rw [hget k hk]
    unfold HeaderGet
    cases r.Header.get? (CanonicalMIMEHeaderKey k) with
    | none => rfl
    | some values =>
      cases values with
      | nil => rfl
      | cons v vs => rfl

/-- Witness of C10: with the sample headers the report has its ten keys, the
client address under `X-Real-IP` and the empty string under `X-Forwarded-For`;
with no header at all it still has the ten keys. -/
theorem getTraefikInfo_spec_witness :
    (getTraefikInfo (plainRequest sampleHeader [])).get? (lit "X-Real-IP") =
        some (lit "9.9.9.9") ∧
      (getTraefikInfo (plainRequest sampleHeader [])).get? (lit "X-Forwarded-For") = some [] ∧
      (getTraefikInfo (plainRequest GoMap.empty [])).keys.length = 10 :=
  ⟨(getTraefikInfo_spec (plainRequest sampleHeader [])).2.2.2.1 (lit "X-Real-IP") (by decide),
   (getTraefikInfo_spec (plainRequest sampleHeader [])).2.2.2.1 (lit "X-Forwarded-For")
      (by decide),
   by decide⟩

/-! ## The TLS collector: properties -/

/-- C11: for a request with no TLS session, `getTLSInfo(r)` is the one-entry map
from `TLS` to `Not used`: that entry is present and `TLS` is its only key.  The
function returns a map on this branch as on the other; there is no error result. -/
theorem getTLSInfo_no_tls (cipherSuiteName : Nat → GoString) (r : Request)
    (h : r.TLS = none) :
    (getTLSInfo cipherSuiteName r).entries = [⟨lit "TLS", lit "Not used"⟩] ∧
      (getTLSInfo cipherSuiteName r).get? (lit "TLS") = some (lit "Not used") ∧
      (∀ k, k ∈ getTLSInfo cipherSuiteName r ↔ k = lit "TLS") := by
  have hmap : getTLSInfo cipherSuiteName r = GoMap.ofList [(lit "TLS", lit "Not used")] := by
    unfold getTLSInfo
    rw [h]
  rw [hmap]
  refine ⟨rfl, rfl, ?_⟩
  intro k
  rw [GoMap.mem_ofList]
  simp

/-- Witness of C11: the plain request has no TLS session and its report is the
single entry. -/
theorem getTLSInfo_no_tls_witness :
    (getTLSInfo (fun _ => []) (plainRequest sampleHeader [])).entries =
        [⟨lit "TLS", lit "Not used"⟩] ∧
      (getTLSInfo (fun _ => []) (plainRequest sampleHeader [])).get? (lit "TLS") =
        some (lit "Not used") ∧
      (∀ k, k ∈ getTLSInfo (fun _ => []) (plainRequest sampleHeader []) ↔ k = lit "TLS") :=
  getTLSInfo_no_tls (fun _ => []) (plainRequest sampleHeader []) rfl

/-- C12: `getTLSVersion(v)` is `TLS 1.0` for `0x0301`, `TLS 1.1` for `0x0302`,
`TLS 1.2` for `0x0303`, `TLS 1.3` for `0x0304`, and `Unknown` for every other
number, among them SSL 3.0 (`0x0300`) and 0. -/
theorem getTLSVersion_spec (v : Nat) :
    (v = 0x0301 → getTLSVersion v = lit "TLS 1.0") ∧
      (v = 0x0302 → getTLSVersion v = lit "TLS 1.1") ∧
      (v = 0x0303 → getTLSVersion v = lit "TLS 1.2") ∧
      (v = 0x0304 → getTLSVersion v = lit "TLS 1.3") ∧
      (v ≠ 0x0301 → v ≠ 0x0302 → v ≠ 0x0303 → v ≠ 0x0304 → getTLSVersion v = lit "Unknown") ∧
      getTLSVersion 0x0300 = lit "Unknown" ∧ getTLSVersion 0 = lit "Unknown" := by
  refine ⟨?_, ?_, ?_, ?_, ?_, by decide, by decide⟩
  · intro h
    subst h
    rfl
  · intro h
    subst h
    rfl
  · intro h
    subst h
    rfl
  · intro h
    subst h
    rfl
  · intro h1 h2 h3 h4
    unfold getTLSVersion
    rw [if_neg h1, if_neg h2, if_neg h3, if_neg h4]

/-- Witness of C12: the five renderings at `0x0301 .. 0x0304` and at the largest
16-bit number. -/
theorem getTLSVersion_spec_witness :
    getTLSVersion 0x0301 = lit "TLS 1.0" ∧ getTLSVersion 0x0302 = lit "TLS 1.1" ∧
      getTLSVersion 0x0303 = lit "TLS 1.2" ∧ getTLSVersion 0x0304 = lit "TLS 1.3" ∧
      getTLSVersion 0xFFFF = lit "Unknown" :=
  ⟨(getTLSVersion_spec 0x0301).1 rfl, (getTLSVersion_spec 0x0302).2.1 rfl,
   (getTLSVersion_spec 0x0303).2.2.1 rfl, (getTLSVersion_spec 0x0304).2.2.2.1 rfl,
   (getTLSVersion_spec 0xFFFF).2.2.2.2.1 (by decide) (by decide) (by decide) (by decide)⟩

/-! ## The cookie collector: same-site modes -/

/-- C13: `formatSameSite(s)` is one of the five strings `Default`, `Lax`,
`Strict`, `None`, `Not set`: `Default` for 1, `Lax` for 2, `Strict` for 3,
`None` for 4, and `Not set` for every other value, the zero value of a cookie
parsed from a request among them. -/
theorem formatSameSite_spec (s : Int) :
    formatSameSite s ∈ sameSiteNames ∧
      (s = 1 → formatSameSite s = lit "Default") ∧
      (s = 2 → formatSameSite s = lit "Lax") ∧
      (s = 3 → formatSameSite s = lit "Strict") ∧
      (s = 4 → formatSameSite s = lit "None") ∧
      (s ≠ 1 → s ≠ 2 → s ≠ 3 → s ≠ 4 → formatSameSite s = lit "Not set") ∧
      formatSameSite (requestCookie [] []).SameSite = lit "Not set" := by
  refine ⟨?_, ?_, ?_, ?_, ?_, ?_, by decide⟩
  · unfold formatSameSite sameSiteNames
    split_ifs <;> simp
  · intro h
    subst h
    rfl
  · intro h
    subst h
    rfl
  · intro h
    subst h
    rfl
  · intro h
    subst h
    rfl
  · intro h1 h2 h3 h4
    unfold formatSameSite
    rw [if_neg h1, if_neg h2, if_neg h3, if_neg h4]

/-- Witness of C13: the renderings of the four modes, of zero and of a negative value. -/
theorem formatSameSite_spec_witness :
    formatSameSite 1 = lit "Default" ∧ formatSameSite 2 = lit "Lax" ∧
      formatSameSite 3 = lit "Strict" ∧ formatSameSite 4 = lit "None" ∧
      formatSameSite 0 = lit "Not set" ∧ formatSameSite (-1) = lit "Not set" :=
  ⟨(formatSameSite_spec 1).2.1 rfl, (formatSameSite_spec 2).2.2.1 rfl,
   (formatSameSite_spec 3).2.2.2.1 rfl, (formatSameSite_spec 4).2.2.2.2.1 rfl,
   (formatSameSite_spec 0).2.2.2.2.2.1 (by decide) (by decide) (by decide) (by decide),
   (formatSameSite_spec (-1)).2.2.2.2.2.1 (by decide) (by decide) (by decide) (by decide)⟩

/-! ## The report: properties -/

/-! ## JSON: the scanner on string text -/

theorem run_append (st : ParseState) (a b : GoString) : run st (a ++ b) = run (run st a) b :=
  List.foldl_append _ _ _ _

theorem run_cons (st : ParseState) (c : UInt8) (t : GoString) :
    run st (c :: t) = run (step st c) t := rfl

theorem run_nil (st : ParseState) : run st [] = st := rfl

theorem StrOK.append {a b : GoString} (ha : StrOK a) (hb : StrOK b) : StrOK (a ++ b) := by
  induction ha with
  | nil => exact hb
  | plain c rest hc _ ih => exact StrOK.plain c _ hc ih
  | escape e rest he _ ih => exact StrOK.escape e _ he ih
  | escapeU h1 h2 h3 h4 rest a1 a2 a3 a4 _ ih => exact StrOK.escapeU h1 h2 h3 h4 _ a1 a2 a3 a4 ih

theorem StrOK.of_plain (chunk : GoString) (h : ∀ c ∈ chunk, PlainByte c) : StrOK chunk := by
  induction chunk with
  | nil => exact StrOK.nil
  | cons c t ih =>
    exact StrOK.plain c t (h c (by simp)) (ih (fun x hx => h x (by simp [hx])))

theorem step_inString_plain (stack : List Frame) (k : Bool) (acc : GoString) (c : UInt8)
    (h : PlainByte c) :
    step ⟨stack, .inString k acc⟩ c = ⟨stack, .inString k (acc ++ [c])⟩ := by
  obtain ⟨h1, h2, h3⟩ := h
  have h3' : ¬ c.toNat < 0x20 := by omega
  simp [step, h1, h2, h3']

theorem step_inString_backslash (stack : List Frame) (k : Bool) (acc : GoString) :
    step ⟨stack, .inString k acc⟩ 0x5C = ⟨stack, .inStringEsc k (acc ++ [0x5C])⟩ := rfl

theorem step_inStringEsc (stack : List Frame) (k : Bool) (acc : GoString) (e : UInt8)
    (he : isEscapeChar e = true) :
    step ⟨stack, .inStringEsc k acc⟩ e = ⟨stack, .inString k (acc ++ [e])⟩ := by
  simp [step, he]

theorem step_inStringEsc_u (stack : List Frame) (k : Bool) (acc : GoString) :
    step ⟨stack, .inStringEsc k acc⟩ 0x75 = ⟨stack, .inStringEscU k (acc ++ [0x75]) 0⟩ := rfl

theorem step_inStringEscU (stack : List Frame) (k : Bool) (acc : GoString) (n : Nat) (c : UInt8)
    (hc : (hexValue c).isSome = true) (hn : n ≠ 3) :
    step ⟨stack, .inStringEscU k acc n⟩ c = ⟨stack, .inStringEscU k (acc ++ [c]) (n + 1)⟩ := by
  simp [step, hc, hn]

theorem step_inStringEscU_last (stack : List Frame) (k : Bool) (acc : GoString) (c : UInt8)
    (hc : (hexValue c).isSome = true) :
    step ⟨stack, .inStringEscU k acc 3⟩ c = ⟨stack, .inString k (acc ++ [c])⟩ := by
  simp [step, hc]

/-- The scanner stays inside the string over well-formed string text. -/
theorem run_inString (raw : GoString) (hok : StrOK raw) (stack : List Frame) (k : Bool)
    (acc : GoString) :
    run ⟨stack, .inString k acc⟩ raw = ⟨stack, .inString k (acc ++ raw)⟩ := by
  induction hok generalizing acc with
  | nil => simp [run_nil]
  | plain c rest hc _ ih =>
    rw [run_cons, step_inString_plain _ _ _ _ hc, ih]
    simp
  | escape e rest he _ ih =>
    rw [run_cons, step_inString_backslash, run_cons, step_inStringEsc _ _ _ _ he, ih]
    simp
  | escapeU h1 h2 h3 h4 rest a1 a2 a3 a4 _ ih =>
    rw [run_cons, step_inString_backslash, run_cons, step_inStringEsc_u, run_cons,
      step_inStringEscU _ _ _ _ _ a1 (by decide), run_cons,
      step_inStringEscU _ _ _ _ _ a2 (by decide), run_cons,
      step_inStringEscU _ _ _ _ _ a3 (by decide), run_cons,
      step_inStringEscU_last _ _ _ _ a4, ih]
    simp

/-! ## JSON: unquoting well-formed string text -/

theorem isCont_ge (b : Nat) (h : isCont b = true) : 0x80 ≤ b := by
  unfold isCont at h
  simp only [Bool.and_eq_true, decide_eq_true_eq] at h
  exact h.1

theorem acceptSecond_ge (b0 b1 : Nat) (h : acceptSecond b0 b1 = true) : 0x80 ≤ b1 := by
  unfold acceptSecond at h
  split_ifs at h
  · simp only [Bool.and_eq_true, decide_eq_true_eq] at h
    omega
  · simp only [Bool.and_eq_true, decide_eq_true_eq] at h
    omega
  · simp only [Bool.and_eq_true, decide_eq_true_eq] at h
    omega
  · simp only [Bool.and_eq_true, decide_eq_true_eq] at h
    omega
  · exact isCont_ge b1 h

/-- The bytes a rune takes after its first are continuation bytes. -/
theorem decodeRune_tail_ge (b0 : Nat) (l : List Nat) :
    ∀ x ∈ l.take ((decodeRune b0 l).2 - 1), 0x80 ≤ x := by
  unfold decodeRune
  split_ifs with h1 h2 h3 h4 h5
  · simp
  · simp
  · match l with
    | [] => simp
    | b1 :: t =>
      simp only
      split_ifs with ha
      · intro x hx
        simp only [Nat.add_one_sub_one, List.take_succ_cons, List.take_zero, List.mem_singleton]
          at hx
        rw [hx]
        exact acceptSecond_ge b0 b1 ha
      · simp
  · match l with
    | [] => simp
    | [_] => simp
    | b1 :: b2 :: t =>
      simp only
      split_ifs with ha
      · simp only [Bool.and_eq_true] at ha
        intro x hx
        simp only [Nat.add_one_sub_one, List.take_succ_cons, List.take_zero, List.mem_cons,
          List.mem_singleton, List.mem_nil_iff, or_false] at hx
        rcases hx with hx | hx
        · rw [hx]
          exact acceptSecond_ge b0 b1 ha.1
        · rw [hx]
          exact isCont_ge b2 ha.2
      · simp
  · match l with
    | [] => simp
    | [_] => simp
    | [_, _] => simp
    | b1 :: b2 :: b3 :: t =>
      simp only
      split_ifs with ha
      · simp only [Bool.and_eq_true] at ha
        intro x hx
        simp only [Nat.add_one_sub_one, List.take_succ_cons, List.take_zero, List.mem_cons,
          List.mem_singleton, List.mem_nil_iff, or_false] at hx
        rcases hx with hx | hx | hx
        · rw [hx]
          exact acceptSecond_ge b0 b1 ha.1.1
        · rw [hx]
          exact isCont_ge b2 ha.1.2
        · rw [hx]
          exact isCont_ge b3 ha.2
      · simp
  · simp

theorem plainByte_of_ge (c : UInt8) (h : 0x80 ≤ c.toNat) : PlainByte c := by
  refine ⟨?_, ?_, by omega⟩
  · intro e
    subst e
    exact absurd h (by decide)
  · intro e
    subst e
    exact absurd h (by decide)

/-- The bytes a rune takes after its first are plain bytes of string text. -/
theorem decodeRune_tail_plain (c : UInt8) (rest : GoString) :
    ∀ x ∈ rest.take ((decodeRune c.toNat (rest.map UInt8.toNat)).2 - 1), PlainByte x := by
  intro x hx
  apply plainByte_of_ge
  apply decodeRune_tail_ge c.toNat (rest.map UInt8.toNat)
  rw [← List.map_take]
  exact List.mem_map_of_mem _ hx

theorem StrOK.tail_of_plain {c : UInt8} {rest : GoString} (h : StrOK (c :: rest))
    (hc : PlainByte c) : StrOK rest := by
  cases h with
  | plain _ _ _ hr => exact hr
  | escape e rest' he hr => exact absurd rfl hc.2.1
  | escapeU h1 h2 h3 h4 rest' a1 a2 a3 a4 hr => exact absurd rfl hc.2.1

theorem StrOK.drop_plain (n : Nat) :
    ∀ (l : GoString), StrOK l → (∀ x ∈ l.take n, PlainByte x) → StrOK (l.drop n) := by
  induction n with
  | zero => intro l h _; simpa using h
  | succ n ih =>
    intro l h hp
    cases l with
    | nil => simpa using h
    | cons c t =>
      rw [List.drop_succ_cons]
      apply ih t (h.tail_of_plain (hp c (by simp)))
      intro x hx
      exact hp x (by simp [hx])

theorem hex4_of_isSome (h1 h2 h3 h4 : UInt8) (rest : GoString)
    (a1 : (hexValue h1).isSome = true) (a2 : (hexValue h2).isSome = true)
    (a3 : (hexValue h3).isSome = true) (a4 : (hexValue h4).isSome = true) :
    ∃ v, hex4 (h1 :: h2 :: h3 :: h4 :: rest) = some (v, rest) := by
  obtain ⟨x, hx⟩ := Option.isSome_iff_exists.1 a1
  obtain ⟨y, hy⟩ := Option.isSome_iff_exists.1 a2
  obtain ⟨z, hz⟩ := Option.isSome_iff_exists.1 a3
  obtain ⟨w, hw⟩ := Option.isSome_iff_exists.1 a4
  refine ⟨((x * 16 + y) * 16 + z) * 16 + w, ?_⟩
  simp [hex4, hx, hy, hz, hw]

theorem simpleEscape_of_isEscapeChar (e : UInt8) (he : isEscapeChar e = true) :
    ∃ b, simpleEscape e = some b := by
  have : e = 0x62 ∨ e = 0x66 ∨ e = 0x6E ∨ e = 0x72 ∨ e = 0x74 ∨ e = 0x5C ∨ e = 0x2F ∨
      e = 0x22 := by
    simp only [isEscapeChar, Bool.or_eq_true, decide_eq_true_eq] at he
    tauto
  rcases this with h | h | h | h | h | h | h | h <;> subst h <;> exact ⟨_, rfl⟩

theorem isEscapeChar_ne_u (e : UInt8) (he : isEscapeChar e = true) : e ≠ 0x75 := by
  intro h
  subst h
  exact absurd he (by decide)

/-- After a backslash-u escape the text that follows it, when it starts with such
an escape, continues well formed after that escape. -/
theorem StrOK.after_getu4 {l after : GoString} {v : Nat} (h : StrOK l)
    (hg : getu4 l = some (v, after)) : StrOK after ∧ after.length + 6 = l.length := by
  cases h with
  | nil => simp [getu4] at hg
  | plain c rest hc hr =>
    cases rest with
    | nil => simp [getu4] at hg
    | cons e rest' =>
      simp only [getu4] at hg
      split_ifs at hg with hce
      exact absurd hce.1 hc.2.1
  | escape e rest he hr =>
    simp only [getu4] at hg
    split_ifs at hg with hce
    exact absurd hce.2 (isEscapeChar_ne_u e he)
  | escapeU h1 h2 h3 h4 rest a1 a2 a3 a4 hr =>
    obtain ⟨w, hw⟩ := hex4_of_isSome h1 h2 h3 h4 rest a1 a2 a3 a4
    simp only [getu4, true_and, if_true, hw, Option.some.injEq, Prod.mk.injEq] at hg
    rw [← hg.2]
    exact ⟨hr, by simp⟩

/-- Well-formed string text can be unquoted. -/
theorem unquoteAux_isSome (fuel : Nat) :
    ∀ (raw : GoString), raw.length ≤ fuel → StrOK raw → ∃ s, unquoteAux fuel raw = some s := by
  induction fuel with
  | zero =>
    intro raw hlen _
    have : raw = [] := List.length_eq_zero.1 (Nat.le_zero.1 hlen)
    subst this
    exact ⟨[], by simp [unquoteAux]⟩
  | succ fuel ih =>
    intro raw hlen hok
    cases hok with
    | nil => exact ⟨[], by simp [unquoteAux]⟩
    | plain c rest hc hr =>
      obtain ⟨hq, hb, hge⟩ := hc
      have hctl : ¬ (c = 0x22 ∨ c.toNat < 0x20) := by
        rintro (h | h)
        · exact hq h
        · omega
      simp only [unquoteAux, if_neg hb, if_neg hctl]
      by_cases hascii : c.toNat < 0x80
      · obtain ⟨s, hs⟩ := ih rest (by simpa using hlen) hr
        rw [if_pos hascii, hs]
        exact ⟨_, rfl⟩
      · have hdrop := StrOK.drop_plain
          ((decodeRune c.toNat (rest.map UInt8.toNat)).2 - 1) rest hr
          (decodeRune_tail_plain c rest)
        obtain ⟨s, hs⟩ := ih _ (by
          simp only [List.length_cons] at hlen
          simp only [List.length_drop]
          omega) hdrop
        rw [if_neg hascii, hs]
        exact ⟨_, rfl⟩
    | escape e rest he hr =>
      obtain ⟨b, hb⟩ := simpleEscape_of_isEscapeChar e he
      obtain ⟨s, hs⟩ := ih rest (by simp at hlen; omega) hr
      simp only [unquoteAux, if_true, if_neg (isEscapeChar_ne_u e he), hb, hs]
      exact ⟨_, rfl⟩
    | escapeU h1 h2 h3 h4 rest a1 a2 a3 a4 hr =>
      obtain ⟨v, hv⟩ := hex4_of_isSome h1 h2 h3 h4 rest a1 a2 a3 a4
      obtain ⟨s, hs⟩ := ih rest (by simp at hlen; omega) hr
      simp only [unquoteAux, if_true, hv]
      split_ifs with hsur
      · cases hg : getu4 rest with
        | none =>
          simp only [hs]
          exact ⟨_, rfl⟩
        | some p =>
          obtain ⟨rr1, after⟩ := p
          obtain ⟨hafter, hal⟩ := hr.after_getu4 hg
          obtain ⟨s', hs'⟩ := ih after (by simp at hlen; omega) hafter
          simp only
          split_ifs
          · rw [hs']
            exact ⟨_, rfl⟩
          · rw [hs]
            exact ⟨_, rfl⟩
      · rw [hs]
        exact ⟨_, rfl⟩

theorem unquote_isSome (raw : GoString) (h : StrOK raw) : ∃ s, unquote raw = some s :=
  unquoteAux_isSome raw.length raw (Nat.le_refl _) h

/-! ## JSON: what the encoder writes is read back -/

theorem hexDigit_isHex : ∀ n, n < 16 → (hexValue (hexDigit n)).isSome = true := by
  decide

theorem plainByte_of_htmlSafe (b : UInt8) (h : htmlSafe b = true) : PlainByte b := by
  unfold htmlSafe at h
  simp only [Bool.and_eq_true, decide_eq_true_eq, Bool.not_eq_true', Bool.or_eq_false_iff,
    decide_eq_false_iff_not] at h
  exact ⟨h.2.1.1.1.1, h.2.1.1.1.2, h.1.1⟩

theorem strOK_escapeByte (b : UInt8) (hb : b.toNat < 0x80) : StrOK (escapeByte b) := by
  unfold escapeByte
  split_ifs with h1 h2 h3 h4 h5 h6
  · refine StrOK.escape b [] ?_ StrOK.nil
    rcases h1 with h | h <;> subst h <;> rfl
  · exact StrOK.escape _ [] rfl StrOK.nil
  · exact StrOK.escape _ [] rfl StrOK.nil
  · exact StrOK.escape _ [] rfl StrOK.nil
  · exact StrOK.escape _ [] rfl StrOK.nil
  · exact StrOK.escape _ [] rfl StrOK.nil
  · exact StrOK.escapeU _ _ _ _ [] rfl rfl (hexDigit_isHex _ (by omega))
      (hexDigit_isHex _ (Nat.mod_lt _ (by decide))) StrOK.nil

/-- The text `appendString` writes between the quotes is well-formed string text. -/
theorem strOK_appendStringAux (fuel : Nat) : ∀ s : GoString, StrOK (appendStringAux fuel s) := by
  induction fuel with
  | zero => intro s; cases s <;> exact StrOK.nil
  | succ fuel ih =>
    intro s
    cases s with
    | nil => exact StrOK.nil
    | cons b rest =>
      simp only [appendStringAux]
      split_ifs with hascii hsafe herr hsep
      · exact StrOK.plain b _ (plainByte_of_htmlSafe b hsafe) (ih rest)
      · exact (strOK_escapeByte b hascii).append (ih rest)
      · exact StrOK.escapeU _ _ _ _ _ rfl rfl rfl rfl (ih rest)
      · exact StrOK.escapeU _ _ _ _ _ rfl rfl rfl
          (hexDigit_isHex _ (Nat.mod_lt _ (by decide))) (ih _)
      · refine StrOK.plain b _ (plainByte_of_ge b (by omega)) ?_
        exact (StrOK.of_plain _ (decodeRune_tail_plain b rest)).append (ih _)

theorem roundKey_spec (k : GoString) : unquote (appendStringAux k.length k) = some (roundKey k) := by
  obtain ⟨s, hs⟩ := unquote_isSome _ (strOK_appendStringAux k.length k)
  unfold roundKey
  rw [hs]
  rfl

/-- A string literal where a value is expected is read as a string value. -/
theorem run_appendString_value (stack : List Frame) (s : GoString) :
    ∃ v, run ⟨stack, .beginValue⟩ (appendString s) = pushValue stack v := by
  obtain ⟨t, ht⟩ := unquote_isSome _ (strOK_appendStringAux s.length s)
  refine ⟨.string t, ?_⟩
  have h1 : step ⟨stack, .beginValue⟩ 0x22 = ⟨stack, .inString false []⟩ := rfl
  have h2 : run ⟨stack, .beginValue⟩ (0x22 :: appendStringAux s.length s) =
      ⟨stack, .inString false (appendStringAux s.length s)⟩ := by
    rw [run_cons, h1, run_inString _ (strOK_appendStringAux s.length s)]
    rfl
  unfold appendString
  rw [run_append, h2, run_cons, run_nil]
  simp only [step, if_true, endString, ht]
  rfl

/-- A string literal where a key is expected is read as the key of the next member. -/
theorem run_appendString_key (members : List (GoString × JValue)) (rest : List Frame)
    (k : GoString) (m : Mode) (hm : m = .beginStringOrEmpty ∨ m = .beginString) :
    run ⟨.object members :: rest, m⟩ (appendString k) =
      ⟨.member members (roundKey k) :: rest, .endValue⟩ := by
  have h1 : step ⟨.object members :: rest, m⟩ 0x22 =
      ⟨.object members :: rest, .inString true []⟩ := by
    rcases hm with h | h <;> subst h <;> rfl
  have h2 : run ⟨.object members :: rest, m⟩ (0x22 :: appendStringAux k.length k) =
      ⟨.object members :: rest, .inString true (appendStringAux k.length k)⟩ := by
    rw [run_cons, h1, run_inString _ (strOK_appendStringAux k.length k)]
    rfl
  unfold appendString
  rw [run_append, h2, run_cons, run_nil]
  simp only [step, if_true, endString, roundKey_spec k]

theorem readsBack_appendString : ReadsBack appendString :=
  fun s stack => run_appendString_value stack s

theorem run_member {V : Type} (encodeValue : V → GoString) (hV : ReadsBack encodeValue)
    (members : List (GoString × JValue)) (rest : List Frame) (kv : GoString × V) (m : Mode)
    (hm : m = .beginStringOrEmpty ∨ m = .beginString) :
    ∃ jv, run ⟨.object members :: rest, m⟩ (appendString kv.1 ++ [0x3A] ++ encodeValue kv.2) =
      ⟨.object (members ++ [(roundKey kv.1, jv)]) :: rest, .endValue⟩ := by
  obtain ⟨jv, hjv⟩ := hV kv.2 (.member members (roundKey kv.1) :: rest)
  refine ⟨jv, ?_⟩
  rw [run_append, run_append, run_appendString_key _ _ _ _ hm, run_cons, run_nil]
  have h1 : step ⟨.member members (roundKey kv.1) :: rest, .endValue⟩ 0x3A =
      ⟨.member members (roundKey kv.1) :: rest, .beginValue⟩ := rfl
  rw [h1, hjv]
  rfl

theorem run_encodeMembers {V : Type} (encodeValue : V → GoString) (hV : ReadsBack encodeValue)
    (rest : List Frame) :
    ∀ (kvs : List (GoString × V)) (members : List (GoString × JValue)) (first : Bool),
      ∃ members', run ⟨.object members :: rest,
          if first then .beginStringOrEmpty else .endValue⟩ (encodeMembers encodeValue first kvs) =
        ⟨.object members' :: rest,
          if kvs.isEmpty && first then .beginStringOrEmpty else .endValue⟩ ∧
        members'.map Prod.fst = members.map Prod.fst ++ kvs.map (fun kv => roundKey kv.1) := by
  intro kvs
  induction kvs with
  | nil =>
    intro members first
    refine ⟨members, ?_, by simp⟩
    cases first <;> rfl
  | cons kv t ih =>
    intro members first
    have hstart : ∃ m, (m = Mode.beginStringOrEmpty ∨ m = Mode.beginString) ∧
        run ⟨.object members :: rest, if first then .beginStringOrEmpty else .endValue⟩
          (if first then [] else [0x2C]) = ⟨.object members :: rest, m⟩ := by
      cases first
      · exact ⟨.beginString, Or.inr rfl, rfl⟩
      · exact ⟨.beginStringOrEmpty, Or.inl rfl, rfl⟩
    obtain ⟨m, hm, hrun⟩ := hstart
    obtain ⟨jv, hjv⟩ := run_member encodeValue hV members rest kv m hm
    obtain ⟨members', hrun', hkeys⟩ := ih (members ++ [(roundKey kv.1, jv)]) false
    refine ⟨members', ?_, ?_⟩
    · have henc : encodeMembers encodeValue first (kv :: t) =
          (if first then [] else [0x2C]) ++
            ((appendString kv.1 ++ [0x3A] ++ encodeValue kv.2) ++
              encodeMembers encodeValue false t) := by
        simp [encodeMembers]
      rw [henc, run_append, hrun, run_append, hjv]
      simp only [Bool.false_eq_true, if_false, Bool.and_false] at hrun'
      rw [hrun']
      simp
    · rw [hkeys]
      simp

/-- An encoded map is read back as an object whose keys are the keys of the
map, each as a reader unquotes it, in the order written. -/
theorem run_encodeMap {V : Type} (encodeValue : V → GoString) (hV : ReadsBack encodeValue)
    (m : GoMap V) (stack : List Frame) :
    ∃ members, run ⟨stack, .beginValue⟩ (encodeMap encodeValue m) =
        pushValue stack (.object members) ∧
      members.map Prod.fst = (sortedEntries m).map (fun kv => roundKey kv.1) := by
  obtain ⟨members, hrun, hkeys⟩ := run_encodeMembers encodeValue hV stack (sortedEntries m) [] true
  refine ⟨members, ?_, by simpa using hkeys⟩
  have h1 : step ⟨stack, .beginValue⟩ 0x7B = ⟨.object [] :: stack, .beginStringOrEmpty⟩ := rfl
  simp only [if_true] at hrun
  unfold encodeMap
  rw [run_append, run_cons ⟨stack, .beginValue⟩, h1, hrun, run_cons, run_nil]
  split_ifs <;> rfl

theorem readsBack_encodeMap {V : Type} (encodeValue : V → GoString) (hV : ReadsBack encodeValue) :
    ReadsBack (encodeMap encodeValue) := by
  intro m stack
  obtain ⟨members, h, _⟩ := run_encodeMap encodeValue hV m stack
  exact ⟨_, h⟩

theorem run_encodeElems {E : Type} (encodeElem : E → GoString) (hE : ReadsBack encodeElem)
    (hfirst : ∀ e, ∃ t, encodeElem e = 0x7B :: t) (rest : List Frame) :
    ∀ (l : List E) (elems : List JValue) (first : Bool),
      ∃ elems', run ⟨.array elems :: rest,
          if first then .beginValueOrEmpty else .endValue⟩ (encodeElems encodeElem first l) =
        ⟨.array elems' :: rest,
          if l.isEmpty && first then .beginValueOrEmpty else .endValue⟩ := by
  intro l
  induction l with
  | nil =>
    intro elems first
    refine ⟨elems, ?_⟩
    cases first <;> rfl
  | cons e t ih =>
    intro elems first
    obtain ⟨jv, hjv⟩ := hE e (.array elems :: rest)
    obtain ⟨body, hbody⟩ := hfirst e
    have hstart : run ⟨.array elems :: rest, if first then .beginValueOrEmpty else .endValue⟩
        ((if first then [] else [0x2C]) ++ encodeElem e) =
        run ⟨.array elems :: rest, .beginValue⟩ (encodeElem e) := by
      cases first
      · rfl
      · rw [hbody]
        rfl
    obtain ⟨elems', hrun'⟩ := ih (elems ++ [jv]) false
    refine ⟨elems', ?_⟩
    have henc : encodeElems encodeElem first (e :: t) =
        ((if first then [] else [0x2C]) ++ encodeElem e) ++ encodeElems encodeElem false t := by
      simp [encodeElems]
    rw [henc, run_append, hstart, hjv]
    simp only [Bool.false_eq_true, if_false, Bool.and_false] at hrun'
    have hpush : pushValue (.array elems :: rest) jv = ⟨.array (elems ++ [jv]) :: rest, .endValue⟩ :=
      rfl
    rw [hpush, hrun']
    simp

theorem readsBack_encodeSlice {E : Type} (encodeElem : E → GoString) (hE : ReadsBack encodeElem)
    (hfirst : ∀ e, ∃ t, encodeElem e = 0x7B :: t) : ReadsBack (encodeSlice encodeElem) := by
  intro l stack
  obtain ⟨elems, hrun⟩ := run_encodeElems encodeElem hE hfirst stack l [] true
  refine ⟨.array elems, ?_⟩
  have h1 : step ⟨stack, .beginValue⟩ 0x5B = ⟨.array [] :: stack, .beginValueOrEmpty⟩ := rfl
  simp only [if_true] at hrun
  unfold encodeSlice
  rw [run_append, run_cons ⟨stack, .beginValue⟩, h1, hrun, run_cons, run_nil]
  split_ifs <;> rfl

theorem readsBack_encodeReportValue : ReadsBack encodeReportValue := by
  intro v stack
  cases v with
  | mapping m => exact readsBack_encodeMap appendString readsBack_appendString m stack
  | sequence l =>
    exact readsBack_encodeSlice encodeStringMap
      (readsBack_encodeMap appendString readsBack_appendString) (fun m => ⟨_, rfl⟩) l stack

/-- The bytes the encoder writes for a report are read back as a map whose keys
are the keys of the report, each as a reader unquotes it. -/
theorem jsonUnmarshal_jsonEncode (debugInfo : GoMap ReportValue) :
    ∃ m, jsonUnmarshal (jsonEncode debugInfo) = some m ∧
      ∀ k, k ∈ m ↔ k ∈ (sortedEntries debugInfo).map (fun kv => roundKey kv.1) := by
  obtain ⟨members, hrun, hkeys⟩ :=
    run_encodeMap encodeReportValue readsBack_encodeReportValue debugInfo []
  refine ⟨GoMap.ofList members, ?_, ?_⟩
  · have hparse : jsonParse (jsonEncode debugInfo) = some (.object members) := by
      unfold jsonParse jsonEncode
      rw [run_append, hrun]
      rfl
    unfold jsonUnmarshal
    rw [hparse]
  · intro k
    rw [GoMap.mem_ofList, hkeys]


/-- The order of the sorted entries depends on the keys only. -/
theorem insertByKey_map {V W : Type} (f : V → W) (kv : GoString × V) (l : List (GoString × V)) :
    (insertByKey kv l).map (fun x => (x.1, f x.2)) =
      insertByKey (kv.1, f kv.2) (l.map fun x => (x.1, f x.2)) := by
  induction l with
  | nil => rfl
  | cons x t ih =>
    simp only [insertByKey, List.map_cons]
    split_ifs
    · rfl
    · rw [List.map_cons, ih]

theorem foldr_insertByKey_map {V W : Type} (f : V → W) (l : List (GoString × V)) :
    (l.foldr insertByKey []).map (fun x => (x.1, f x.2)) =
      (l.map fun x => (x.1, f x.2)).foldr insertByKey [] := by
  induction l with
  | nil => rfl
  | cons x t ih => rw [List.foldr_cons, insertByKey_map, ih, List.map_cons, List.foldr_cons]

theorem sortedEntries_keys {V : Type} (m : GoMap V) :
    (sortedEntries m).map Prod.fst =
      ((m.keys.map fun k => (k, ())).foldr insertByKey []).map Prod.fst := by
  have h := foldr_insertByKey_map (fun _ : V => ()) (m.entries.map fun e => (e.1, e.2))
  have hk : (m.entries.map fun e => (e.1, e.2)).map (fun x => (x.1, ())) =
      m.keys.map fun k => (k, ()) := by
    simp [AList.keys, List.keys, List.map_map]
  rw [hk] at h
  rw [← h]
  unfold sortedEntries
  rw [List.map_map]
  rfl

theorem sortedEntries_handleDebugInfo (cipherSuiteName : Nat → GoString)
    (environ : List GoString) (r : Request) :
    (sortedEntries (handleDebugInfo cipherSuiteName environ r)).map (fun kv => roundKey kv.1) =
      sortedReportKeys := by
  have hkeys : (handleDebugInfo cipherSuiteName environ r).keys = reportKeys.reverse := rfl
  have h1 : (sortedEntries (handleDebugInfo cipherSuiteName environ r)).map Prod.fst =
      sortedReportKeys := by
    rw [sortedEntries_keys, hkeys]
    decide
  have h2 : sortedReportKeys.map roundKey = sortedReportKeys := by decide
  rw [← h2, ← h1, List.map_map]
  rfl

theorem mem_sortedReportKeys (k : GoString) : k ∈ sortedReportKeys ↔ k ∈ reportKeys := by
  have h : sortedReportKeys.Perm reportKeys := by decide
  exact h.mem_iff

/-- C14: for every request and every environment, the report `handleDebugInfo`
builds has the nine top-level keys `headers`, `environment`, `request`,
`cloudflare`, `traefik`, `remoteInfo`, `serverInfo`, `tls`, `cookies` and no
others; and the bytes `json.NewEncoder(w).Encode` writes for it are parsed back
by `json.Unmarshal` into a mapping with exactly these nine keys. -/
theorem handleDebugInfo_keys (cipherSuiteName : Nat → GoString) (environ : List GoString)
    (r : Request) :
    (∀ k, k ∈ handleDebugInfo cipherSuiteName environ r ↔ k ∈ reportKeys) ∧
      (handleDebugInfo cipherSuiteName environ r).keys.Perm reportKeys ∧
      reportKeys.length = 9 ∧ reportKeys.Nodup ∧
      (∃ m, jsonUnmarshal (responseBody cipherSuiteName environ r) = some m ∧
        ∀ k, k ∈ m ↔ k ∈ reportKeys) := by
  have hkeys : (handleDebugInfo cipherSuiteName environ r).keys = reportKeys.reverse := rfl
  refine ⟨?_, ?_, by decide, by decide, ?_⟩
  · intro k
    unfold handleDebugInfo
    rw [GoMap.mem_ofList]
    rfl
  · rw [hkeys]
    exact List.reverse_perm reportKeys
  · obtain ⟨m, hm, hk⟩ := jsonUnmarshal_jsonEncode (handleDebugInfo cipherSuiteName environ r)
    refine ⟨m, hm, ?_⟩
    intro k
    rw [hk, sortedEntries_handleDebugInfo, mem_sortedReportKeys]

/-- Witness of C14: a request with no headers and no cookies, in an empty
environment, still gives the nine keys, in the report and in what is parsed
back from its JSON text.  Two parts of a JSON text are spelt out: the `tls`
value of such a request, and an environment whose values need escaping. -/
theorem handleDebugInfo_keys_witness :
    (handleDebugInfo (fun _ => []) [] (plainRequest GoMap.empty [])).keys.Perm reportKeys ∧
      (∃ m, jsonUnmarshal (responseBody (fun _ => []) [] (plainRequest GoMap.empty [])) =
          some m ∧ ∀ k, k ∈ m ↔ k ∈ reportKeys) ∧
      encodeStringMap (getTLSInfo (fun _ => []) (plainRequest GoMap.empty [])) =
        lit "\x7b\"TLS\":\"Not used\"\x7d" ∧
      encodeStringMap (getEnv [lit "Q=say \"hi\"", lit "A=b<c"]) =
        lit "\x7b\"A\":\"b\\u003cc\",\"Q\":\"say \\\"hi\\\"\"\x7d" :=
  ⟨(handleDebugInfo_keys (fun _ => []) [] (plainRequest GoMap.empty [])).2.1,
   (handleDebugInfo_keys (fun _ => []) [] (plainRequest GoMap.empty [])).2.2.2.2,
   by decide, by decide⟩

/-- C16: the cloudflare report is a sub-mapping of the headers report: every
entry of `getCloudflareInfo(r)` is an entry of `getHeaders(r)` with the same
value; the excluded name `Cookie` does not start with `Cf-`. -/
theorem getCloudflareInfo_sub_getHeaders (r : Request) :
    (∀ name value, (getCloudflareInfo r).get? name = some value →
        (getHeaders r).get? name = some value) ∧
      ¬ lit "Cf-" <+: lit "Cookie" := by
  have hcookie : ¬ lit "Cf-" <+: lit "Cookie" := by decide
  refine ⟨?_, hcookie⟩
  intro name value h
  rw [getCloudflareInfo_get?] at h
  by_cases hp : stringsHasPrefix name (lit "Cf-") = true
  · have hn : name ≠ lit "Cookie" := by
      intro e
      rw [e] at hp
      exact hcookie ((stringsHasPrefix_iff _ _).1 hp)
    rw [if_pos hp] at h
    rw [getHeaders_get?, if_pos hn]
    exact h
  · rw [if_neg hp] at h
    simp at h

/-- Witness of C16: the sample header `Cf-Connecting-IP` is in both reports with
the same value. -/
theorem getCloudflareInfo_sub_getHeaders_witness :
    (getCloudflareInfo (plainRequest sampleHeader [])).get? (lit "Cf-Connecting-IP") =
        some (lit "1.2.3.4") ∧
      (getHeaders (plainRequest sampleHeader [])).get? (lit "Cf-Connecting-IP") =
        some (lit "1.2.3.4") :=
  ⟨by decide,
   (getCloudflareInfo_sub_getHeaders (plainRequest sampleHeader [])).1 (lit "Cf-Connecting-IP")
      (lit "1.2.3.4") (by decide)⟩

/-! ## What a mask reveals -/

theorem getEnvStep_sensitive_entry (env : GoMap GoString) (name value : GoString)
    (hname : (0x3D : UInt8) ∉ name) (hs : ContainsFold envWords name) :
    getEnvStep env (entry name value) = env.set name (List.replicate value.length 0x58) := by
  rw [getEnvStep_of_split _ _ _ _ (stringsSplitN2_entry name value hname),
    if_pos ((envSensitivePattern_iff name).2 hs), maskSensitiveValue_eq_replicate]

theorem cookieData_sensitive (c : Cookie) (v : GoString)
    (hs : ContainsFold cookieWords c.Name) (hlen : c.Value.length = v.length) :
    cookieData c = cookieData { c with Value := v } := by
  have hm := (cookieSensitivePattern_iff c.Name).2 hs
  unfold cookieData
  simp only [hm, if_true, maskSensitiveValue_eq_replicate, hlen]
  rfl

/-- C15: a masked value shows its length and nothing else.  Two snapshots that
differ only in the value of one variable with a sensitive name, the two values of
equal length, give the same map from `getEnv`; two cookie lists that differ only
in the value of one cookie with a sensitive name, the two values of equal
length, give the same records from `getCookieInfo`. -/
theorem masked_value_shows_length_only :
    (∀ (pre post : List GoString) (name v1 v2 : GoString), (0x3D : UInt8) ∉ name →
        ContainsFold envWords name → v1.length = v2.length →
        getEnv (pre ++ entry name v1 :: post) = getEnv (pre ++ entry name v2 :: post)) ∧
      (∀ (r : Request) (pre post : List Cookie) (c : Cookie) (v : GoString),
        ContainsFold cookieWords c.Name → c.Value.length = v.length →
        r.Cookies = pre ++ c :: post →
        getCookieInfo r =
          getCookieInfo { r with Cookies := pre ++ { c with Value := v } :: post }) := by
  constructor
  · intro pre post name v1 v2 hname hs hlen
    unfold getEnv
    rw [List.foldl_append, List.foldl_append, List.foldl_cons, List.foldl_cons,
      getEnvStep_sensitive_entry _ _ _ hname hs, getEnvStep_sensitive_entry _ _ _ hname hs, hlen]
  · intro r pre post c v hs hlen hr
    rw [getCookieInfo_eq_map, getCookieInfo_eq_map, hr]
    simp only [List.map_append, List.map_cons]
    rw [cookieData_sensitive c v hs hlen]

/-- Witness of C15: the snapshots with `API_KEY=abc` and with `API_KEY=xyz` give
one map, and the cookies `session=abc123` and `session=zzzzzz` give the same
records. -/
theorem masked_value_shows_length_only_witness :
    getEnv [lit "HOME=/root", lit "API_KEY=abc", lit "PATH=/bin"] =
        getEnv [lit "HOME=/root", lit "API_KEY=xyz", lit "PATH=/bin"] ∧
      getCookieInfo (plainRequest sampleHeader sessionThemeCookies) =
        getCookieInfo (plainRequest sampleHeader
          [requestCookie (lit "session") (lit "zzzzzz"), requestCookie (lit "theme") (lit "dark")]) :=
  ⟨masked_value_shows_length_only.1 [lit "HOME=/root"] [lit "PATH=/bin"] (lit "API_KEY")
      (lit "abc") (lit "xyz") (by decide) (by decide) (by decide),
   masked_value_shows_length_only.2 (plainRequest sampleHeader sessionThemeCookies) []
      [requestCookie (lit "theme") (lit "dark")] (requestCookie (lit "session") (lit "abc123"))
      (lit "zzzzzz") (by decide) (by decide) rfl⟩

/-! ## Bytes and characters -/

theorem decodeRune_ascii (b0 : Nat) (rest : List Nat) (h : b0 < 0x80) :
    decodeRune b0 rest = (b0, 1) := by
  unfold decodeRune
  rw [if_pos h]

theorem decodeRunesAux_ascii (l : List Nat) (hl : ∀ b ∈ l, b < 0x80) (fuel : Nat)
    (hfuel : l.length ≤ fuel) : decodeRunesAux fuel l = l := by
  induction l generalizing fuel with
  | nil => cases fuel <;> rfl
  | cons b t ih =>
    cases fuel with
    | zero => simp at hfuel
    | succ n =>
      have hb : b < 0x80 := hl b (by simp)
      have ht : ∀ c ∈ t, c < 0x80 := fun c hc => hl c (by simp [hc])
      have hn : t.length ≤ n := by simpa using hfuel
      simp only [decodeRunesAux, decodeRune_ascii b t hb, Nat.sub_self, List.drop_zero]
      rw [ih ht n hn]

/-- An ASCII string has one rune per byte. -/
theorem runeCount_ascii (v : GoString) (h : IsASCII v) : runeCount v = v.length := by
  unfold runeCount decodeRunes
  rw [decodeRunesAux_ascii _ _ _ (by simp)]
  · simp
  · intro b hb
    obtain ⟨c, hc, rfl⟩ := List.mem_map.1 hb
    exact h c hc

/-- C17: the mask is as long as the value has bytes, not characters: it has
`len(v)` bytes for every value; for a value of ASCII characters only that is one
`X` per character; for the one-character value `é`, two bytes in UTF-8, the mask
is `XX`, more `X` than the value has characters. -/
theorem mask_counts_bytes :
    (∀ v, (maskSensitiveValue v).length = v.length) ∧
      (∀ v, IsASCII v → (maskSensitiveValue v).length = runeCount v) ∧
      lit "é" = [0xC3, 0xA9] ∧ runeCount (lit "é") = 1 ∧
      maskSensitiveValue (lit "é") = lit "XX" ∧
      runeCount (lit "é") < (maskSensitiveValue (lit "é")).length := by
  refine ⟨maskSensitiveValue_length, ?_, by decide, by decide, by decide, by decide⟩
  intro v hv
  rw [maskSensitiveValue_length, runeCount_ascii v hv]

/-- Witness of C17: the ASCII value `abc123` has six characters and a mask of
six `X`. -/
theorem mask_counts_bytes_witness :
    IsASCII (lit "abc123") ∧ runeCount (lit "abc123") = 6 ∧
      (maskSensitiveValue (lit "abc123")).length = runeCount (lit "abc123") :=
  ⟨by decide, by decide, mask_counts_bytes.2.1 (lit "abc123") (by decide)⟩

/-! ## The server software variable -/

theorem findSome?_of_unique {α β : Type} (f : α → Option β) (l : List α) (b : β)
    (hex : ∃ a ∈ l, f a = some b) (hall : ∀ a ∈ l, ∀ b', f a = some b' → b' = b) :
    l.findSome? f = some b := by
  induction l with
  | nil =>
    obtain ⟨a, ha, _⟩ := hex
    simp at ha
  | cons x t ih =>
    rw [List.findSome?_cons]
    cases hx : f x with
    | some b' =>
      rw [hall x (by simp) b' hx]
    | none =>
      have hex' : ∃ a ∈ t, f a = some b := by
        obtain ⟨a, ha, hfa⟩ := hex
        rcases List.mem_cons.1 ha with h | h
        · rw [h, hx] at hfa
          simp at hfa
        · exact ⟨a, h, hfa⟩
      exact ih hex' (fun a ha b' => hall a (List.mem_cons_of_mem _ ha) b')

/-- When `key=value` is the only entry of the snapshot that names `key`,
`os.Getenv(key)` is `value`. -/
theorem osGetenv_of_unique (environ : List GoString) (key value : GoString)
    (hkey : key ≠ []) (hname : (0x3D : UInt8) ∉ key) (hmem : entry key value ∈ environ)
    (huniq : ∀ e ∈ environ, entryName e = some key → e = entry key value) :
    osGetenv environ key = value := by
  unfold osGetenv
  rw [if_neg hkey, findSome?_of_unique _ environ value]
  · rfl
  · refine ⟨entry key value, hmem, ?_⟩
    simp only [stringsSplitN2_entry key value hname, if_true]
  · intro e he v hv
    have hsplit : stringsSplitN2 e 0x3D = [key, v] := by
      split at hv
      · rename_i k v' hs
        split at hv
        · rename_i hk
          rw [hs, hk, Option.some.inj hv]
        · simp at hv
      · simp at hv
    have he' := huniq e he (entryName_of_split e key v hsplit)
    rw [he', stringsSplitN2_entry key value hname] at hsplit
    simp only [List.cons.injEq, and_true, true_and] at hsplit
    exact hsplit.symm

/-- C18: when `SERVER_SOFTWARE` is set once in the environment, with value
`value`, the value `getEnv` reports under `SERVER_SOFTWARE` and the value
`getServerInfo` reports under `ServerSoftware` are both `value`, unmasked: the
name `SERVER_SOFTWARE` contains none of the environment sensitivity words. -/
theorem server_software_consistent (environ : List GoString) (r : Request) (value : GoString)
    (hmem : entry (lit "SERVER_SOFTWARE") value ∈ environ)
    (huniq : ∀ e ∈ environ, entryName e = some (lit "SERVER_SOFTWARE") →
      e = entry (lit "SERVER_SOFTWARE") value) :
    (getEnv environ).get? (lit "SERVER_SOFTWARE") = some value ∧
      (getServerInfo environ r).get? (lit "ServerSoftware") = some value ∧
      (getEnv environ).get? (lit "SERVER_SOFTWARE") =
        (getServerInfo environ r).get? (lit "ServerSoftware") ∧
      ¬ ContainsFold envWords (lit "SERVER_SOFTWARE") := by
  have hname : (0x3D : UInt8) ∉ lit "SERVER_SOFTWARE" := by decide
  have hns : ¬ ContainsFold envWords (lit "SERVER_SOFTWARE") := by decide
  have hnm : ¬ envSensitivePattern.MatchString (lit "SERVER_SOFTWARE") = true := by decide
  have henv : (getEnv environ).get? (lit "SERVER_SOFTWARE") = some value := by
    rw [getEnv_get?_of_unique environ _ value hname hmem huniq, if_neg hnm]
  have hsrv : (getServerInfo environ r).get? (lit "ServerSoftware") = some value := by
    have : (getServerInfo environ r).get? (lit "ServerSoftware") =
        some (osGetenv environ (lit "SERVER_SOFTWARE")) := rfl
    rw [this, osGetenv_of_unique environ _ value (by decide) hname hmem huniq]
  exact ⟨henv, hsrv, henv.trans hsrv.symm, hns⟩

/-- Witness of C18: with `SERVER_SOFTWARE=nginx/1.25` both reports give `nginx/1.25`. -/
theorem server_software_consistent_witness :
    (getEnv [lit "PATH=/bin", lit "SERVER_SOFTWARE=nginx/1.25"]).get?
        (lit "SERVER_SOFTWARE") = some (lit "nginx/1.25") ∧
      (getServerInfo [lit "PATH=/bin", lit "SERVER_SOFTWARE=nginx/1.25"]
        (plainRequest sampleHeader [])).get? (lit "ServerSoftware") = some (lit "nginx/1.25") :=
  ⟨(server_software_consistent [lit "PATH=/bin", lit "SERVER_SOFTWARE=nginx/1.25"]
      (plainRequest sampleHeader []) (lit "nginx/1.25") (by decide) (by decide)).1,
   (server_software_consistent [lit "PATH=/bin", lit "SERVER_SOFTWARE=nginx/1.25"]
      (plainRequest sampleHeader []) (lit "nginx/1.25") (by decide) (by decide)).2.1⟩

end InspectoHttp
